import Mathlib

/-!
Verification development for the UK Vehicle Data micro-service
(`app/vehicle_service.py`).

The core of the service is embedded shallowly:

* `extract_json_object` — the brace/quote-aware scanner `_extract_json_object`
  (lines 137-178 of the source);
* `safe_json_load` — `_safe_json_load` (lines 217-227), JSON decoding with a
  one-level unicode-escape fallback;
* `loads` — a model of Python `json.loads` (executable recursive-descent
  decoder; numbers are modelled as integers, floating-point literals and
  lone-surrogate escapes are outside the model and rejected);
* `pyUnicodeEscape` — a model of `bytes(s, "utf-8").decode("unicode_escape")`
  restricted to the escape sequences themselves (non-ASCII mojibake of the
  utf-8 round-trip is outside the model);
* `fetch_html` — the bounded-retry fetch loop `_fetch_html` (lines 113-134),
  with the network abstracted by an oracle giving each attempt an outcome;
* `parse_html` — `_parse_html` (lines 181-204) including its regex fallback
  `"VrmDetails"\s*:\s*({.*?})`, modelled exactly as leftmost search with a
  lazy group ending at the first following close brace;
* `get_vehicle_info` — the cache-backed resolver (lines 207-214) over an
  explicit TTL cache state.

Documents are `List Char`; time is an explicit `Nat` clock.
-/

/-! ## Basic character/string utilities -/

/-- JSON whitespace characters accepted by the Python `json` scanner. -/
def isWsChar (c : Char) : Bool :=
  c = ' ' || c = '\t' || c = '\n' || c = '\r'

/-- Whitespace characters matched by the regex class in the fallback pattern. -/
def isReWsChar (c : Char) : Bool :=
  c = ' ' || c = '\t' || c = '\n' || c = '\r' || c = Char.ofNat 11 || c = Char.ofNat 12

/-- Drop leading JSON whitespace. -/
def dropWs : List Char → List Char
  | [] => []
  | c :: rest => if isWsChar c then dropWs rest else c :: rest

/-- Drop leading regex whitespace (`\s*`). -/
def dropReWs : List Char → List Char
  | [] => []
  | c :: rest => if isReWsChar c then dropReWs rest else c :: rest

/-- Does `needle` occur as a leading block of `s`? (Python `str.startswith`.) -/
def listStartsWith : List Char → List Char → Bool
  | _, [] => true
  | [], _ :: _ => false
  | c :: hay, d :: nd => c = d && listStartsWith hay nd

/-- Auxiliary index-carrying scan for `strFind`. -/
def strFindAux : List Char → List Char → Nat → Option Nat
  | [], needle, i => if needle = [] then some i else none
  | c :: rest, needle, i =>
    if listStartsWith (c :: rest) needle then some i
    else strFindAux rest needle (i + 1)

/-- Model of Python `haystack.find(needle)`: index of the first occurrence,
`none` for `-1`. -/
def strFind (hay needle : List Char) : Option Nat :=
  strFindAux hay needle 0

/-- Auxiliary index-carrying scan for `charFindFrom`. -/
def charFindAux : List Char → Char → Nat → Option Nat
  | [], _, _ => none
  | c :: rest, t, i => if c = t then some i else charFindAux rest t (i + 1)

/-- Model of Python `haystack.find(ch, start)`: first index `≥ start` holding
`ch`, `none` for `-1`. -/
def charFindFrom (hay : List Char) (t : Char) (start : Nat) : Option Nat :=
  (charFindAux (hay.drop start) t 0).map (· + start)

/-- `needle` occurs somewhere in `hay` starting at index `i`. -/
def matchAt (hay needle : List Char) (i : Nat) : Prop :=
  listStartsWith (hay.drop i) needle = true

/-- `needle` occurs somewhere inside `hay` (executable). -/
def occursB (needle hay : List Char) : Bool :=
  (strFind hay needle).isSome

/-! ## The brace/quote scanner state (`_extract_json_object`, lines 156-176) -/

/-- The scanner's mutable state: `brace_level`, `in_string`, `escaped`. -/
structure ScanSt where
  depth : Int
  inStr : Bool
  esc : Bool
deriving DecidableEq, Repr

/-- Initial scanner state at the opening brace position. -/
def scanInit : ScanSt := ⟨0, false, false⟩

/-- One loop iteration of the scanner, without the early return: toggle
`in_string` on an unescaped quote, then adjust the depth on braces seen
outside a string (using the just-updated `in_string`, as the source does),
then update `escaped`. -/
def sstep (st : ScanSt) (ch : Char) : ScanSt :=
  let inStr2 := if ch = '"' && !st.esc then !st.inStr else st.inStr
  let depth2 :=
    if !inStr2 && ch = '{' then st.depth + 1
    else if !inStr2 && ch = '}' then st.depth - 1
    else st.depth
  let esc2 := ch = '\\' && !st.esc
  ⟨depth2, inStr2, esc2⟩

/-- Run the scanner state transition over a list of characters. -/
def srun (st : ScanSt) (cs : List Char) : ScanSt :=
  cs.foldl sstep st

/-- The scanner loop itself: returns the relative index of the character at
which `brace_level` returns to zero outside a string (the early `return` of
the source), or `none` if the end of the document is reached first. -/
def scanLoop : List Char → ScanSt → Option Nat
  | [], _ => none
  | ch :: rest, st =>
    let st2 := sstep st ch
    if !st2.inStr && ch = '}' && st2.depth = 0 then some 0
    else (scanLoop rest st2).map (· + 1)

/-- Number of loop iterations the scanner performs (for the single-pass
bound). -/
def scanSteps : List Char → ScanSt → Nat
  | [], _ => 0
  | ch :: rest, st =>
    let st2 := sstep st ch
    if !st2.inStr && ch = '}' && st2.depth = 0 then 1
    else 1 + scanSteps rest st2

/-! ## Fetcher (`_fetch_html`, lines 113-134) -/

/-- Outcome of one HTTP attempt, as seen by the retry loop: a 2xx body, a
timeout/transport failure (`httpx.TimeoutException`/`httpx.TransportError`),
or a non-2xx status that makes `raise_for_status` throw. -/
inductive FetchOutcome where
  | ok (text : List Char)
  | transportFail (e : Nat)
  | badStatus (code : Nat)
deriving DecidableEq, Repr

/-- Failure of the whole fetch: a non-2xx status error propagating out of the
loop uncaught, or the final `HTTPException(502)` carrying the last
transport-level exception. -/
inductive FetchErr where
  | statusError (code : Nat)
  | exhausted (last : Option Nat)
deriving DecidableEq, Repr

/-- Observable trace of one `_fetch_html` call: its result, how many attempts
were made, and how many fixed delays (`asyncio.sleep(1)`) were performed. -/
structure FetchTrace where
  result : Except FetchErr (List Char)
  attempts : Nat
  sleeps : Nat
deriving Repr

/-- The retry loop body: `for attempt in range(1, RETRY_ATTEMPTS + 1)`, with
the attempt oracle indexed from 0. A success or a status error leaves the
loop at once; a transport failure records the exception, sleeps, and moves to
the next attempt. -/
def fetchGo (oracle : Nat → FetchOutcome) :
    Nat → Nat → Option Nat → Nat → Nat → FetchTrace
  | 0, _, last, a, s => ⟨Except.error (FetchErr.exhausted last), a, s⟩
  | Nat.succ rem, i, _last, a, s =>
    match oracle i with
    | FetchOutcome.ok t => ⟨Except.ok t, a + 1, s⟩
    | FetchOutcome.badStatus code => ⟨Except.error (FetchErr.statusError code), a + 1, s⟩
    | FetchOutcome.transportFail e => fetchGo oracle rem (i + 1) (some e) (a + 1) (s + 1)

/-- `_fetch_html` with `RETRY_ATTEMPTS = retries`. -/
def fetch_html (oracle : Nat → FetchOutcome) (retries : Nat) : FetchTrace :=
  fetchGo oracle retries 0 none 0 0

/-! ## JSON values

The open-ended vehicle record: the decoded shape of the embedded object.
Numbers are modelled as integers (the documents the claims exercise carry
integer fields; floating-point literals are outside the model and the decoder
rejects them). Object members keep their insertion order, duplicate keys are
resolved keep-first-position/last-value as a Python `dict` does. -/

inductive Json where
  | null
  | bool (b : Bool)
  | num (n : Int)
  | str (s : List Char)
  | arr (elems : List Json)
  | obj (members : List (List Char × Json))

/-- Hex digit character for `\uXXXX` escapes (lower case, as Python emits). -/
def hexDigitCh (n : Nat) : Char :=
  if n < 10 then Char.ofNat (48 + n) else Char.ofNat (87 + n)

/-- JSON escaping of one character: quote and backslash get a backslash,
control characters become `\u00XX`, everything else stands for itself. -/
def escCharJ (c : Char) : List Char :=
  if c = '"' then ['\\', '"']
  else if c = '\\' then ['\\', '\\']
  else if c.toNat < 32 then
    ['\\', 'u', '0', '0', hexDigitCh (c.toNat / 16), hexDigitCh (c.toNat % 16)]
  else [c]

/-- Serialized JSON string literal. -/
def dumpStr (s : List Char) : List Char :=
  '"' :: s.flatMap escCharJ ++ ['"']

/-- Decimal digits of `n`, most significant first (empty for 0). -/
def natDigitsGo : Nat → Nat → List Char
  | 0, _ => []
  | Nat.succ fuel, n =>
    if n = 0 then [] else natDigitsGo fuel (n / 10) ++ [Char.ofNat (48 + n % 10)]

/-- Decimal rendering of a natural number. -/
def dumpNat (n : Nat) : List Char :=
  if n = 0 then ['0'] else natDigitsGo (n + 1) n

/-- Decimal rendering of an integer. -/
def dumpInt (n : Int) : List Char :=
  if n < 0 then '-' :: dumpNat n.natAbs else dumpNat n.natAbs

mutual

/-- Compact JSON serialization (a model of `json.dumps` with compact
separators and `ensure_ascii` off except for control characters). -/
def dumps : Json → List Char
  | Json.null => ['n', 'u', 'l', 'l']
  | Json.bool true => ['t', 'r', 'u', 'e']
  | Json.bool false => ['f', 'a', 'l', 's', 'e']
  | Json.num n => dumpInt n
  | Json.str s => dumpStr s
  | Json.arr [] => ['[', ']']
  | Json.arr (x :: xs) => '[' :: (dumps x ++ dumpsElemsRest xs) ++ [']']
  | Json.obj [] => ['{', '}']
  | Json.obj (m :: ms) =>
    '{' :: (dumpStr m.1 ++ ':' :: dumps m.2 ++ dumpsMembersRest ms) ++ ['}']

/-- Serialization of the second and later array elements. -/
def dumpsElemsRest : List Json → List Char
  | [] => []
  | x :: xs => ',' :: dumps x ++ dumpsElemsRest xs

/-- Serialization of the second and later object members. -/
def dumpsMembersRest : List (List Char × Json) → List Char
  | [] => []
  | m :: ms => ',' :: dumpStr m.1 ++ ':' :: dumps m.2 ++ dumpsMembersRest ms

end

/-- No list of keys repeats (executable). -/
def keyNodupB : List (List Char) → Bool
  | [] => true
  | k :: ks => !(ks.contains k) && keyNodupB ks

mutual

/-- Well-formed record: object keys are duplicate-free at every level, as for
a value that originated from Python dictionaries. -/
def WFb : Json → Bool
  | Json.arr xs => WFbL xs
  | Json.obj ms => keyNodupB (ms.map Prod.fst) && WFbM ms
  | _ => true

/-- All elements well-formed. -/
def WFbL : List Json → Bool
  | [] => true
  | x :: xs => WFb x && WFbL xs

/-- All member values well-formed. -/
def WFbM : List (List Char × Json) → Bool
  | [] => true
  | m :: ms => WFb m.2 && WFbM ms

end


/-! ## Decoder (model of `json.loads`) -/

/-- Hexadecimal digit value of a character. -/
def hexVal (c : Char) : Option Nat :=
  if 48 ≤ c.toNat && c.toNat ≤ 57 then some (c.toNat - 48)
  else if 97 ≤ c.toNat && c.toNat ≤ 102 then some (c.toNat - 87)
  else if 65 ≤ c.toNat && c.toNat ≤ 70 then some (c.toNat - 55)
  else none

/-- Value of four hex digits. -/
def hex4 (a b c d : Char) : Option Nat := do
  let x ← hexVal a
  let y ← hexVal b
  let z ← hexVal c
  let w ← hexVal d
  pure (((x * 16 + y) * 16 + z) * 16 + w)

/-- Decimal digit test. -/
def isDigitCh (c : Char) : Bool :=
  48 ≤ c.toNat && c.toNat ≤ 57

/-- The two-character JSON escapes. -/
def escDecode (e : Char) : Option Char :=
  if e = '"' then some '"'
  else if e = '\\' then some '\\'
  else if e = '/' then some '/'
  else if e = 'b' then some (Char.ofNat 8)
  else if e = 'f' then some (Char.ofNat 12)
  else if e = 'n' then some '\n'
  else if e = 'r' then some '\r'
  else if e = 't' then some '\t'
  else none

/-- Parse the body of a JSON string literal (after the opening quote), up to
and including the closing quote. Handles the two-character escapes and
`\uXXXX`, including surrogate pairs; a lone surrogate escape is rejected
(Python would keep it, but such a character does not arise from encodable
text and cannot inhabit `Char`). Unescaped control characters are rejected
(`strict=True`). -/
def parseStrBody : Nat → List Char → Option (List Char × List Char)
  | 0, _ => none
  | Nat.succ fuel, s =>
    match s with
    | [] => none
    | c :: rest =>
      if c = '"' then some ([], rest)
      else if c = '\\' then
        match rest with
        | [] => none
        | e :: rest2 =>
          if e = 'u' then
            match rest2 with
            | a :: b :: c2 :: d :: rest3 =>
              match hex4 a b c2 d with
              | none => none
              | some n =>
                if n < 0xD800 || 0xDFFF < n then
                  (parseStrBody fuel rest3).map (fun p => (Char.ofNat n :: p.1, p.2))
                else if n < 0xDC00 then
                  match rest3 with
                  | e2 :: u2 :: a2 :: b2 :: c3 :: d2 :: rest4 =>
                    if e2 = '\\' && u2 = 'u' then
                      match hex4 a2 b2 c3 d2 with
                      | some m =>
                        if 0xDC00 ≤ m && m ≤ 0xDFFF then
                          (parseStrBody fuel rest4).map
                            (fun p => (Char.ofNat (0x10000 + (n - 0xD800) * 0x400 + (m - 0xDC00)) :: p.1, p.2))
                        else none
                      | none => none
                    else none
                  | _ => none
                else none
            | _ => none
          else
            match escDecode e with
            | some ch => (parseStrBody fuel rest2).map (fun p => (ch :: p.1, p.2))
            | none => none
      else if c.toNat < 32 then none
      else (parseStrBody fuel rest).map (fun p => (c :: p.1, p.2))

/-- Maximal leading run of decimal digits. -/
def takeDigits : List Char → (List Char × List Char)
  | [] => ([], [])
  | c :: rest =>
    if isDigitCh c then
      let p := takeDigits rest
      (c :: p.1, p.2)
    else ([], c :: rest)

/-- Value of a digit string. -/
def digitsToNat (ds : List Char) : Nat :=
  ds.foldl (fun a c => a * 10 + (c.toNat - 48)) 0

/-- Unsigned integer token: `0` or a nonzero digit followed by more digits
(the JSON grammar's leading-zero rule). -/
def parseUIntTok : List Char → Option (Nat × List Char)
  | [] => none
  | c :: rest =>
    if c = '0' then some (0, rest)
    else if isDigitCh c then
      let p := takeDigits rest
      some (digitsToNat (c :: p.1), p.2)
    else none

/-- Signed integer token. -/
def parseIntTok : List Char → Option (Int × List Char)
  | [] => none
  | c :: rest =>
    if c = '-' then (parseUIntTok rest).map (fun p => (-(p.1 : Int), p.2))
    else (parseUIntTok (c :: rest)).map (fun p => ((p.1 : Int), p.2))

/-- Insert a parsed member as a Python `dict` would: a repeated key keeps its
first position and takes the latest value. -/
def objInsert (acc : List (List Char × Json)) (k : List Char) (v : Json) :
    List (List Char × Json) :=
  if acc.any (fun p => p.1 = k) then
    acc.map (fun p => if p.1 = k then (k, v) else p)
  else acc ++ [(k, v)]

mutual

/-- Recursive-descent JSON value parser (model of `json.loads`' scanner).
Input is expected with leading whitespace already stripped; on failure the
unconsumed remainder at the failure point is returned, from which `loads`
reports an error position. The fuel argument dominates the recursion; every
recursive call consumes at least one character, so `length + 1` fuel never
runs out. -/
def parseValue : Nat → List Char → Except (List Char) (Json × List Char)
  | 0, s => Except.error s
  | Nat.succ fuel, s =>
    match s with
    | [] => Except.error []
    | c :: rest =>
      if c = '"' then
        match parseStrBody fuel rest with
        | some (cs, r) => Except.ok (Json.str cs, r)
        | none => Except.error (c :: rest)
      else if c = '{' then parseObjBody fuel (dropWs rest)
      else if c = '[' then parseArrBody fuel (dropWs rest)
      else if c = 'n' then
        match rest with
        | 'u' :: 'l' :: 'l' :: r => Except.ok (Json.null, r)
        | _ => Except.error (c :: rest)
      else if c = 't' then
        match rest with
        | 'r' :: 'u' :: 'e' :: r => Except.ok (Json.bool true, r)
        | _ => Except.error (c :: rest)
      else if c = 'f' then
        match rest with
        | 'a' :: 'l' :: 's' :: 'e' :: r => Except.ok (Json.bool false, r)
        | _ => Except.error (c :: rest)
      else
        match parseIntTok (c :: rest) with
        | some (n, r) =>
          if r.head? = some '.' ∨ r.head? = some 'e' ∨ r.head? = some 'E' then
            Except.error (c :: rest)
          else Except.ok (Json.num n, r)
        | none => Except.error (c :: rest)

/-- Object body after the opening brace and whitespace. -/
def parseObjBody : Nat → List Char → Except (List Char) (Json × List Char)
  | 0, s => Except.error s
  | Nat.succ fuel, s =>
    match s with
    | [] => Except.error []
    | c :: rest =>
      if c = '}' then Except.ok (Json.obj [], rest)
      else if c = '"' then
        match parseStrBody fuel rest with
        | none => Except.error (c :: rest)
        | some (k, r1) =>
          match dropWs r1 with
          | ':' :: r2 =>
            match parseValue fuel (dropWs r2) with
            | Except.error e => Except.error e
            | Except.ok (v, r3) => parseObjRest fuel [(k, v)] (dropWs r3)
          | r2 => Except.error r2
      else Except.error (c :: rest)

/-- Object members after the first, starting at a `,` or the closing `}`. -/
def parseObjRest :
    Nat → List (List Char × Json) → List Char → Except (List Char) (Json × List Char)
  | 0, _, s => Except.error s
  | Nat.succ fuel, acc, s =>
    match s with
    | [] => Except.error []
    | c :: r =>
      if c = '}' then Except.ok (Json.obj acc, r)
      else if c = ',' then
        match dropWs r with
        | '"' :: rest =>
          match parseStrBody fuel rest with
          | none => Except.error ('"' :: rest)
          | some (k, r1) =>
            match dropWs r1 with
            | ':' :: r2 =>
              match parseValue fuel (dropWs r2) with
              | Except.error e => Except.error e
              | Except.ok (v, r3) => parseObjRest fuel (objInsert acc k v) (dropWs r3)
            | r2 => Except.error r2
        | r2 => Except.error r2
      else Except.error (c :: r)

/-- Array body after the opening bracket and whitespace. -/
def parseArrBody : Nat → List Char → Except (List Char) (Json × List Char)
  | 0, s => Except.error s
  | Nat.succ fuel, s =>
    match s with
    | [] => Except.error []
    | c :: rest =>
      if c = ']' then Except.ok (Json.arr [], rest)
      else
        match parseValue fuel (c :: rest) with
        | Except.error e => Except.error e
        | Except.ok (v, r) => parseArrRest fuel [v] (dropWs r)

/-- Array elements after the first, starting at a `,` or the closing `]`. -/
def parseArrRest :
    Nat → List Json → List Char → Except (List Char) (Json × List Char)
  | 0, _, s => Except.error s
  | Nat.succ fuel, acc, s =>
    match s with
    | [] => Except.error []
    | c :: r =>
      if c = ']' then Except.ok (Json.arr acc, r)
      else if c = ',' then
        match parseValue fuel (dropWs r) with
        | Except.error e => Except.error e
        | Except.ok (v, r2) => parseArrRest fuel (acc ++ [v]) (dropWs r2)
      else Except.error (c :: r)

end

/-- A decode failure (`json.JSONDecodeError`): the offending document and the
position of the failure. -/
structure JErr where
  doc : List Char
  pos : Nat
deriving DecidableEq, Repr

/-- Model of `json.loads`: parse one value surrounded by optional whitespace;
anything left over is an error. -/
def loads (s : List Char) : Except JErr Json :=
  match parseValue (s.length + 1) (dropWs s) with
  | Except.error rem => Except.error ⟨s, s.length - rem.length⟩
  | Except.ok (v, rest) =>
    match dropWs rest with
    | [] => Except.ok v
    | rem => Except.error ⟨s, s.length - rem.length⟩

/-! ## Unicode-escape fallback (`_safe_json_load`, lines 217-227) -/

/-- Octal digit value. -/
def octVal (c : Char) : Option Nat :=
  if 48 ≤ c.toNat && c.toNat ≤ 55 then some (c.toNat - 48) else none

/-- Model of Python's `unicode_escape` codec on the escape sequences
themselves: two-character escapes, line continuation, octal, `\xHH`, `\uXXXX`
and `\UXXXXXXXX`; an unknown escape keeps its backslash; a trailing lone
backslash (and a malformed hex escape) is an error, which `_safe_json_load`'s
inner handler turns back into the original decode error. Fuel-driven; every
step consumes at least one character. -/
def ueGo : Nat → List Char → Option (List Char)
  | 0, _ => none
  | _, [] => some []
  | Nat.succ fuel, c :: rest =>
    if c = '\\' then
      match rest with
      | [] => none
      | e :: rest2 =>
        if e = '\n' then ueGo fuel rest2
        else if e = '\\' then (ueGo fuel rest2).map (fun t => '\\' :: t)
        else if e = Char.ofNat 39 then (ueGo fuel rest2).map (fun t => Char.ofNat 39 :: t)
        else if e = '"' then (ueGo fuel rest2).map (fun t => '"' :: t)
        else if e = 'a' then (ueGo fuel rest2).map (fun t => Char.ofNat 7 :: t)
        else if e = 'b' then (ueGo fuel rest2).map (fun t => Char.ofNat 8 :: t)
        else if e = 'f' then (ueGo fuel rest2).map (fun t => Char.ofNat 12 :: t)
        else if e = 'n' then (ueGo fuel rest2).map (fun t => '\n' :: t)
        else if e = 'r' then (ueGo fuel rest2).map (fun t => '\r' :: t)
        else if e = 't' then (ueGo fuel rest2).map (fun t => '\t' :: t)
        else if e = 'v' then (ueGo fuel rest2).map (fun t => Char.ofNat 11 :: t)
        else if e = 'x' then
          match rest2 with
          | a :: b :: r =>
            match hexVal a, hexVal b with
            | some x, some y => (ueGo fuel r).map (fun t => Char.ofNat (16 * x + y) :: t)
            | _, _ => none
          | _ => none
        else if e = 'u' then
          match rest2 with
          | a :: b :: c2 :: d :: r =>
            match hex4 a b c2 d with
            | some n =>
              if n < 0xD800 || 0xDFFF < n then
                (ueGo fuel r).map (fun t => Char.ofNat n :: t)
              else none
            | none => none
          | _ => none
        else if e = 'U' then
          match rest2 with
          | a :: b :: c2 :: d :: a2 :: b2 :: c3 :: d2 :: r =>
            match hex4 a b c2 d, hex4 a2 b2 c3 d2 with
            | some hi, some lo =>
              let n := hi * 65536 + lo
              if (n < 0xD800 || 0xDFFF < n) && n < 0x110000 then
                (ueGo fuel r).map (fun t => Char.ofNat n :: t)
              else none
            | _, _ => none
          | _ => none
        else
          match octVal e with
          | some o1 =>
            match rest2 with
            | c2 :: r2 =>
              match octVal c2 with
              | some o2 =>
                match r2 with
                | c3 :: r3 =>
                  match octVal c3 with
                  | some o3 => (ueGo fuel r3).map (fun t => Char.ofNat (64 * o1 + 8 * o2 + o3) :: t)
                  | none => (ueGo fuel r2).map (fun t => Char.ofNat (8 * o1 + o2) :: t)
                | [] => some [Char.ofNat (8 * o1 + o2)]
              | none => (ueGo fuel rest2).map (fun t => Char.ofNat o1 :: t)
            | [] => some [Char.ofNat o1]
          | none => (ueGo fuel rest2).map (fun t => '\\' :: e :: t)
    else (ueGo fuel rest).map (fun t => c :: t)

/-- One level of backslash-unescaping, as the fallback clean-up performs. -/
def pyUnicodeEscape (s : List Char) : Option (List Char) :=
  ueGo (s.length + 1) s

/-- `_safe_json_load` with an execution trace: the result together with
whether the fallback path was entered. A primary success returns at once; a
primary failure unescapes once and retries, and any failure on that path
re-raises the original error. -/
def safe_json_load_t (s : List Char) : Except JErr Json × Bool :=
  match loads s with
  | Except.ok v => (Except.ok v, false)
  | Except.error e =>
    match pyUnicodeEscape s with
    | none => (Except.error e, true)
    | some u =>
      match loads u with
      | Except.ok v => (Except.ok v, true)
      | Except.error _ => (Except.error e, true)

/-- `_safe_json_load` (lines 217-227). -/
def safe_json_load (s : List Char) : Except JErr Json :=
  (safe_json_load_t s).1

/-! ## Extractor (`_extract_json_object`, lines 137-178) -/

/-- The plain quoted form `"key"`. -/
def plainKeyMarker (key : List Char) : List Char :=
  '"' :: key ++ ['"']

/-- The backslash-escaped form `\"key\"` searched when the plain form is
absent. -/
def escKeyMarker (key : List Char) : List Char :=
  '\\' :: '"' :: key ++ ['\\', '"']

/-- Lines 145-147: `find` the plain form first, the escaped form second. -/
def findKeyIdx (html key : List Char) : Option Nat :=
  match strFind html (plainKeyMarker key) with
  | some i => some i
  | none => strFind html (escKeyMarker key)

/-- The extractor's failures: the three `ValueError`s of the source plus a
decode failure escaping from `_safe_json_load`. -/
inductive ExtractErr where
  | keyNotFound
  | noBrace
  | unclosed
  | decodeFail (e : JErr)
deriving DecidableEq, Repr

/-- `_extract_json_object` (lines 137-178): find the key, advance to the
first `{` at or after it, scan forward counting braces outside strings, and
decode the delimited substring. -/
def extract_json_object (html key : List Char) : Except ExtractErr Json :=
  match findKeyIdx html key with
  | none => Except.error ExtractErr.keyNotFound
  | some idx =>
    match charFindFrom html '{' idx with
    | none => Except.error ExtractErr.noBrace
    | some start =>
      match scanLoop (html.drop start) scanInit with
      | none => Except.error ExtractErr.unclosed
      | some i =>
        match safe_json_load ((html.drop start).take (i + 1)) with
        | Except.ok v => Except.ok v
        | Except.error e => Except.error (ExtractErr.decodeFail e)

/-- Number of scanner loop iterations `_extract_json_object` performs. -/
def extractScanSteps (html key : List Char) : Nat :=
  match findKeyIdx html key with
  | none => 0
  | some idx =>
    match charFindFrom html '{' idx with
    | none => 0
    | some start => scanSteps (html.drop start) scanInit

/-! ## HTML parsing with regex fallback (`_parse_html`, lines 181-204) -/

/-- The hard-coded key. -/
def vrmKey : List Char := ['V', 'r', 'm', 'D', 'e', 't', 'a', 'i', 'l', 's']

/-- Strip an exact prefix. -/
def stripPrefixL : List Char → List Char → Option (List Char)
  | [], s => some s
  | _ :: _, [] => none
  | c :: ps, d :: s => if c = d then stripPrefixL ps s else none

/-- Characters before the first `}` (the lazy `.*?` against a following `}`,
with `re.DOTALL`); `none` when no close brace follows. -/
def upToCloseBrace : List Char → Option (List Char)
  | [] => none
  | c :: rest => if c = '}' then some [] else (upToCloseBrace rest).map (fun t => c :: t)

/-- Try to match `"VrmDetails"\s*:\s*({.*?})` at the current position,
returning the parenthesised group. -/
def reTryAt (s : List Char) : Option (List Char) :=
  match stripPrefixL (plainKeyMarker vrmKey) s with
  | none => none
  | some s1 =>
    match dropReWs s1 with
    | ':' :: s2 =>
      match dropReWs s2 with
      | '{' :: s3 => (upToCloseBrace s3).map (fun body => '{' :: body ++ ['}'])
      | _ => none
    | _ => none

/-- `re.search` of the fallback pattern: leftmost position where it matches. -/
def regexSearchVrm : List Char → Option (List Char)
  | [] => none
  | c :: rest =>
    match reTryAt (c :: rest) with
    | some g => some g
    | none => regexSearchVrm rest

/-- `_parse_html`'s failure: the `HTTPException(404, "No vehicle data found")`
raised when both the brace-counting extraction and the regex fallback fail. -/
inductive ParseHtmlErr where
  | noData
deriving DecidableEq, Repr

/-- `_parse_html` (lines 181-204): brace-counting extraction of `VrmDetails`;
on any exception from it, the regex fallback; on its failure (no match, or a
decode error on the group), the generic 404. -/
def parse_html (html : List Char) : Except ParseHtmlErr Json :=
  match extract_json_object html vrmKey with
  | Except.ok v => Except.ok v
  | Except.error _ =>
    match regexSearchVrm html with
    | none => Except.error ParseHtmlErr.noData
    | some g =>
      match safe_json_load g with
      | Except.ok v => Except.ok v
      | Except.error _ => Except.error ParseHtmlErr.noData

/-! ## Cache and resolver (`cache`, line 108; `get_vehicle_info`, 207-214) -/

/-- One TTL cache entry: key, value and absolute expiry instant. -/
structure CacheEntry where
  key : List Char
  val : Json
  expire : Nat

/-- The TTL cache contents, oldest first. -/
abbrev VCache := List CacheEntry

/-- Membership/read (`vrm in cache` / `cache[vrm]`): a hit needs an
unexpired entry. -/
def cacheLookup : VCache → List Char → Nat → Option Json
  | [], _, _ => none
  | e :: rest, k, now =>
    if e.key = k ∧ now < e.expire then some e.val else cacheLookup rest k now

/-- Write (`cache[vrm] = info`): expired entries go away, an existing entry
for the key is replaced, the size is bounded by evicting oldest entries, and
the new entry gets a fresh expiry `now + ttl`. -/
def cacheInsert (c : VCache) (k : List Char) (v : Json) (now ttl maxsize : Nat) : VCache :=
  let live := c.filter (fun e => now < e.expire)
  let others := live.filter (fun e => ¬ e.key = k)
  let kept := if maxsize ≤ others.length then others.drop (others.length + 1 - maxsize) else others
  kept ++ [⟨k, v, now + ttl⟩]

/-- A failure of the whole resolution: the fetch failed, or the document
yielded no data (404 from `_parse_html`). -/
inductive ResolveErr where
  | upstream (e : FetchErr)
  | noData
deriving DecidableEq, Repr

/-- Observable outcome of one `get_vehicle_info` call: its result, the cache
afterwards, and whether the Fetcher was invoked. -/
structure ResolveOut where
  result : Except ResolveErr Json
  cache2 : VCache
  fetched : Bool

/-- `get_vehicle_info` (lines 207-214): a cache hit returns at once;
otherwise fetch, parse, store on success, and propagate failure without
touching the cache. -/
def get_vehicle_info (oracle : Nat → FetchOutcome) (retries : Nat)
    (vrm : List Char) (c : VCache) (now ttl maxsize : Nat) : ResolveOut :=
  match cacheLookup c vrm now with
  | some v => ⟨Except.ok v, c, false⟩
  | none =>
    match (fetch_html oracle retries).result with
    | Except.error e => ⟨Except.error (ResolveErr.upstream e), c, true⟩
    | Except.ok html =>
      match parse_html html with
      | Except.error _ => ⟨Except.error ResolveErr.noData, c, true⟩
      | Except.ok info => ⟨Except.ok info, cacheInsert c vrm info now ttl maxsize, true⟩

/-- The scanner's early return fires at relative index `i`: the character
there is a `}` processed outside a string that brings the depth to zero. -/
def closesAt (cs : List Char) (st : ScanSt) (i : Nat) : Prop :=
  ∃ c, cs.get? i = some c ∧
    (sstep (srun st (cs.take i)) c).inStr = false ∧ c = '}' ∧
    (sstep (srun st (cs.take i)) c).depth = 0

/-- `needle` occurs somewhere inside `hay`. -/
def occursIn (needle hay : List Char) : Prop :=
  ∃ i, matchAt hay needle i

/-- A continuation after a serialized number: end of input or a character
that cannot extend the numeric token. -/
def restSafe : List Char → Prop
  | [] => True
  | c :: _ => isDigitCh c = false ∧ c ≠ '.' ∧ c ≠ 'e' ∧ c ≠ 'E'

/-- The scanner passes over `cs` from state `st` without its early return
firing and lands back in the very same state. -/
def ScanNeutral (cs : List Char) (st : ScanSt) : Prop :=
  scanLoop cs st = none ∧ srun st cs = st

/-! # Theorems -/

/-! ## Scanner state lemmas -/

theorem srun_nil (st : ScanSt) : srun st [] = st := rfl

theorem srun_cons (st : ScanSt) (c : Char) (cs : List Char) :
    srun st (c :: cs) = srun (sstep st c) cs := rfl

theorem srun_append (st : ScanSt) (a b : List Char) :
    srun st (a ++ b) = srun (srun st a) b := by
  simp [srun, List.foldl_append]

theorem scanLoop_nil (st : ScanSt) : scanLoop [] st = none := rfl

theorem scanLoop_cons (c : Char) (cs : List Char) (st : ScanSt) :
    scanLoop (c :: cs) st =
      (if !(sstep st c).inStr && c = '}' && (sstep st c).depth = 0 then some 0
       else (scanLoop cs (sstep st c)).map (· + 1)) := rfl

theorem scanLoop_append_some (a b : List Char) (st : ScanSt) (i : Nat)
    (h : scanLoop a st = some i) : scanLoop (a ++ b) st = some i := by
  induction a generalizing st i with
  | nil => simp [scanLoop] at h
  | cons c a ih =>
    rw [scanLoop_cons] at h
    rw [List.cons_append, scanLoop_cons]
    by_cases hc : (!(sstep st c).inStr && c = '}' && (sstep st c).depth = 0) = true
    · rw [if_pos hc] at h ⊢; exact h
    · rw [if_neg hc] at h ⊢
      rcases Option.map_eq_some'.mp h with ⟨j, hj, rfl⟩
      rw [ih _ _ hj]; rfl

theorem scanLoop_append_none (a b : List Char) (st : ScanSt)
    (h : scanLoop a st = none) :
    scanLoop (a ++ b) st = (scanLoop b (srun st a)).map (· + a.length) := by
  induction a generalizing st with
  | nil =>
    simp [srun]
  | cons c a ih =>
    rw [scanLoop_cons] at h
    rw [List.cons_append, scanLoop_cons]
    by_cases hc : (!(sstep st c).inStr && c = '}' && (sstep st c).depth = 0) = true
    · rw [if_pos hc] at h; exact absurd h (by simp)
    · rw [if_neg hc] at h ⊢
      have h0 : scanLoop (a ++ b) (sstep st c) =
          (scanLoop b (srun (sstep st c) a)).map (· + a.length) :=
        ih (sstep st c) (by simpa using h)
      rw [h0, srun_cons]
      cases scanLoop b (srun (sstep st c) a) with
      | none => rfl
      | some j => simp [Option.map]; omega

theorem scanSteps_le_length (cs : List Char) (st : ScanSt) :
    scanSteps cs st ≤ cs.length := by
  induction cs generalizing st with
  | nil => simp [scanSteps]
  | cons c cs ih =>
    rw [scanSteps]
    by_cases hc : (!(sstep st c).inStr && c = '}' && (sstep st c).depth = 0) = true
    · rw [if_pos hc]; simp
    · rw [if_neg hc]
      have := ih (sstep st c)
      simp only [List.length_cons]
      omega

theorem scanLoop_some_lt_length (cs : List Char) (st : ScanSt) (i : Nat)
    (h : scanLoop cs st = some i) : i < cs.length := by
  induction cs generalizing st i with
  | nil => simp [scanLoop] at h
  | cons c cs ih =>
    rw [scanLoop_cons] at h
    by_cases hc : (!(sstep st c).inStr && c = '}' && (sstep st c).depth = 0) = true
    · rw [if_pos hc] at h; cases h; simp
    · rw [if_neg hc] at h
      rcases Option.map_eq_some'.mp h with ⟨j, hj, rfl⟩
      have := ih _ _ hj
      simpa using Nat.succ_lt_succ this

theorem closesAt_cons_zero (c : Char) (cs : List Char) (st : ScanSt) :
    closesAt (c :: cs) st 0 ↔
      ((sstep st c).inStr = false ∧ c = '}' ∧ (sstep st c).depth = 0) := by
  constructor
  · rintro ⟨d, hd, h1, h2, h3⟩
    simp only [List.get?] at hd
    cases hd
    exact ⟨by simpa [srun] using h1, h2, by simpa [srun] using h3⟩
  · rintro ⟨h1, h2, h3⟩
    exact ⟨c, rfl, by simpa [srun] using h1, h2, by simpa [srun] using h3⟩

theorem closesAt_cons_succ (c : Char) (cs : List Char) (st : ScanSt) (j : Nat) :
    closesAt (c :: cs) st (j + 1) ↔ closesAt cs (sstep st c) j := by
  simp [closesAt, List.take_succ_cons, srun_cons]

theorem scanLoop_eq_none_iff (cs : List Char) (st : ScanSt) :
    scanLoop cs st = none ↔ ∀ i, ¬ closesAt cs st i := by
  induction cs generalizing st with
  | nil =>
    simp only [scanLoop_nil, true_iff]
    rintro i ⟨c, hc, -⟩
    simp at hc
  | cons c cs ih =>
    rw [scanLoop_cons]
    by_cases hc : (!(sstep st c).inStr && c = '}' && (sstep st c).depth = 0) = true
    · rw [if_pos hc]
      constructor
      · intro h; exact absurd h (by simp)
      · intro h
        exfalso
        refine h 0 ?_
        rw [closesAt_cons_zero]
        simp only [Bool.and_eq_true, Bool.not_eq_true', decide_eq_true_eq] at hc
        exact ⟨hc.1.1, hc.1.2, hc.2⟩
    · rw [if_neg hc]
      constructor
      · intro h i hcl
        have hnone : scanLoop cs (sstep st c) = none := by
          cases hsc : scanLoop cs (sstep st c) with
          | none => rfl
          | some j => rw [hsc] at h; simp [Option.map] at h
        cases i with
        | zero =>
          rw [closesAt_cons_zero] at hcl
          obtain ⟨g1, g2, g3⟩ := hcl
          subst g2
          exact hc (by simp [g1, g3])
        | succ j =>
          rw [closesAt_cons_succ] at hcl
          exact (ih (sstep st c)).mp hnone j hcl
      · intro h
        have : scanLoop cs (sstep st c) = none := by
          rw [ih (sstep st c)]
          intro j hj
          exact h (j + 1) ((closesAt_cons_succ c cs st j).mpr hj)
        rw [this]; rfl

theorem scanLoop_eq_some_closes (cs : List Char) (st : ScanSt) (i : Nat)
    (h : scanLoop cs st = some i) :
    closesAt cs st i ∧ ∀ j, j < i → ¬ closesAt cs st j := by
  induction cs generalizing st i with
  | nil => simp [scanLoop] at h
  | cons c cs ih =>
    rw [scanLoop_cons] at h
    by_cases hc : (!(sstep st c).inStr && c = '}' && (sstep st c).depth = 0) = true
    · rw [if_pos hc] at h
      cases h
      simp only [Bool.and_eq_true, Bool.not_eq_true', decide_eq_true_eq] at hc
      refine ⟨(closesAt_cons_zero c cs st).mpr ⟨hc.1.1, hc.1.2, hc.2⟩, ?_⟩
      intro j hj; omega
    · rw [if_neg hc] at h
      rcases Option.map_eq_some'.mp h with ⟨j, hj, rfl⟩
      rcases ih _ _ hj with ⟨h1, h2⟩
      refine ⟨(closesAt_cons_succ c cs st j).mpr h1, ?_⟩
      intro k hk
      cases k with
      | zero =>
        rw [closesAt_cons_zero]
        rintro ⟨g1, g2, g3⟩
        subst g2
        exact hc (by simp [g1, g3])
      | succ m =>
        rw [closesAt_cons_succ]
        exact h2 m (by omega)

theorem sstep_agree_inStr (st : ScanSt) (c c' : Char)
    (hs : st.inStr = true) (h1 : c ≠ '"') (h2 : c ≠ '\\')
    (h1' : c' ≠ '"') (h2' : c' ≠ '\\') : sstep st c = sstep st c' := by
  simp [sstep, h1, h2, h1', h2', hs]

/-- C2: during the forward scan, brace depth changes only on `{`/`}` seen
outside a string (unchanged inside a string), string mode is toggled exactly
by unescaped quotes, the escape flag is set exactly by a backslash that is
not itself escaped (so it alternates across consecutive backslashes and
resets after every other character), and consequently replacing a `{` or `}`
that the scan meets inside a quoted string by any other plain character
moves no delimiting position: braces inside string values cannot affect
where the object ends. -/
theorem claim2_scanner_step_spec :
    (∀ (st : ScanSt) (c : Char), c ≠ '{' → c ≠ '}' → (sstep st c).depth = st.depth)
  ∧ (∀ st : ScanSt, st.inStr = true →
      (sstep st '{').depth = st.depth ∧ (sstep st '}').depth = st.depth)
  ∧ (∀ st : ScanSt, st.inStr = false →
      (sstep st '{').depth = st.depth + 1 ∧ (sstep st '}').depth = st.depth - 1)
  ∧ (∀ (st : ScanSt) (c : Char), c ≠ '"' → (sstep st c).inStr = st.inStr)
  ∧ (∀ st : ScanSt, st.esc = true → (sstep st '"').inStr = st.inStr)
  ∧ (∀ st : ScanSt, st.esc = false → (sstep st '"').inStr = !st.inStr)
  ∧ (∀ (st : ScanSt) (c : Char), (sstep st c).esc = true ↔ (c = '\\' ∧ st.esc = false))
  ∧ (∀ (a b : List Char) (c c' : Char),
      (srun scanInit a).inStr = true →
      c ≠ '"' → c ≠ '\\' → c' ≠ '"' → c' ≠ '\\' →
      scanLoop (a ++ c :: b) scanInit = scanLoop (a ++ c' :: b) scanInit) := by
  refine ⟨?_, ?_, ?_, ?_, ?_, ?_, ?_, ?_⟩
  · intro st c h1 h2; simp [sstep, h1, h2]
  · intro st hs; constructor <;> simp [sstep, hs]
  · intro st hs; constructor <;> simp [sstep, hs]
  · intro st c h; simp [sstep, h]
  · intro st h; simp [sstep, h]
  · intro st h; simp [sstep, h]
  · intro st c; simp [sstep]
  · intro a b c c' hs h1 h2 h1' h2'
    cases ha : scanLoop a scanInit with
    | some i =>
      rw [scanLoop_append_some a _ scanInit i ha, scanLoop_append_some a _ scanInit i ha]
    | none =>
      rw [scanLoop_append_none a _ scanInit ha, scanLoop_append_none a _ scanInit ha]
      have hst : sstep (srun scanInit a) c = sstep (srun scanInit a) c' :=
        sstep_agree_inStr _ c c' hs h1 h2 h1' h2'
      have hin : (sstep (srun scanInit a) c).inStr = true := by
        rw [(by simp [sstep, h1] : (sstep (srun scanInit a) c).inStr = (srun scanInit a).inStr)]
        exact hs
      have hin' : (sstep (srun scanInit a) c').inStr = true := by rw [← hst]; exact hin
      rw [scanLoop_cons, scanLoop_cons, hst]
      rw [if_neg (by simp [hin']), if_neg (by simp [hin'])]

/-- Witness for C2: an in-string `{` and a plain letter at the same spot
delimit identically. -/
theorem claim2_witness :
    scanLoop (['{', '"', 'a'] ++ '{' :: ['"', '}']) scanInit =
    scanLoop (['{', '"', 'a'] ++ 'x' :: ['"', '}']) scanInit :=
  claim2_scanner_step_spec.2.2.2.2.2.2.2 ['{', '"', 'a'] ['"', '}'] '{' 'x'
    (by decide) (by decide) (by decide) (by decide) (by decide)

/-! ## Fetcher lemmas and claims C5, C6 -/

theorem fetchGo_all_transport (oracle : Nat → FetchOutcome) (err : Nat → Nat) :
    ∀ (rem i : Nat) (last : Option Nat) (a s : Nat),
      (∀ k, k < rem → oracle (i + k) = FetchOutcome.transportFail (err (i + k))) →
      fetchGo oracle rem i last a s =
        ⟨Except.error (FetchErr.exhausted
            (if rem = 0 then last else some (err (i + rem - 1)))), a + rem, s + rem⟩ := by
  intro rem
  induction rem with
  | zero => intro i last a s _; simp [fetchGo]
  | succ rem ih =>
    intro i last a s h
    have h0 := h 0 (by omega)
    simp only [Nat.add_zero] at h0
    simp only [fetchGo, h0]
    rw [ih (i + 1) (some (err i)) (a + 1) (s + 1) (fun k hk => by
      have := h (k + 1) (by omega)
      rw [show i + 1 + k = i + (k + 1) by omega]
      exact this)]
    by_cases hrem : rem = 0
    · subst hrem; simp
    · have he : i + 1 + rem - 1 = i + (rem + 1) - 1 := by omega
      simp only [hrem, if_false, Nat.succ_ne_zero, he]
      congr 1 <;> first | rfl | omega

theorem fetchGo_success (oracle : Nat → FetchOutcome) (err : Nat → Nat) (t : List Char) :
    ∀ (j rem i : Nat) (last : Option Nat) (a s : Nat), j < rem →
      (∀ k, k < j → oracle (i + k) = FetchOutcome.transportFail (err (i + k))) →
      oracle (i + j) = FetchOutcome.ok t →
      fetchGo oracle rem i last a s = ⟨Except.ok t, a + j + 1, s + j⟩ := by
  intro j
  induction j with
  | zero =>
    intro rem i last a s hrem _ hok
    cases rem with
    | zero => omega
    | succ rem =>
      simp only [Nat.add_zero] at hok
      simp only [fetchGo, hok]
      congr 1 <;> first | rfl | omega
  | succ j ih =>
    intro rem i last a s hrem hpre hok
    cases rem with
    | zero => omega
    | succ rem =>
      have h0 := hpre 0 (by omega)
      simp only [Nat.add_zero] at h0
      simp only [fetchGo, h0]
      have := ih rem (i + 1) (some (err i)) (a + 1) (s + 1) (by omega)
        (fun k hk => by
          have := hpre (k + 1) (by omega)
          rw [show i + 1 + k = i + (k + 1) by omega]
          exact this)
        (by rw [show i + 1 + j = i + (j + 1) by omega]; exact hok)
      rw [this]
      congr 1 <;> first | rfl | omega

theorem fetchGo_badStatus (oracle : Nat → FetchOutcome) (err : Nat → Nat) (code : Nat) :
    ∀ (j rem i : Nat) (last : Option Nat) (a s : Nat), j < rem →
      (∀ k, k < j → oracle (i + k) = FetchOutcome.transportFail (err (i + k))) →
      oracle (i + j) = FetchOutcome.badStatus code →
      fetchGo oracle rem i last a s =
        ⟨Except.error (FetchErr.statusError code), a + j + 1, s + j⟩ := by
  intro j
  induction j with
  | zero =>
    intro rem i last a s hrem _ hok
    cases rem with
    | zero => omega
    | succ rem =>
      simp only [Nat.add_zero] at hok
      simp only [fetchGo, hok]
      congr 1 <;> first | rfl | omega
  | succ j ih =>
    intro rem i last a s hrem hpre hok
    cases rem with
    | zero => omega
    | succ rem =>
      have h0 := hpre 0 (by omega)
      simp only [Nat.add_zero] at h0
      simp only [fetchGo, h0]
      have := ih rem (i + 1) (some (err i)) (a + 1) (s + 1) (by omega)
        (fun k hk => by
          have := hpre (k + 1) (by omega)
          rw [show i + 1 + k = i + (k + 1) by omega]
          exact this)
        (by rw [show i + 1 + j = i + (j + 1) by omega]; exact hok)
      rw [this]
      congr 1 <;> first | rfl | omega

/-- C5: when every attempt fails at the transport level, the fetch makes
exactly the configured number of attempts and then fails with the upstream
error carrying the last underlying failure, having slept once after each failed
attempt (so each of the retries is preceded by the fixed delay); a success on
any attempt returns the body at once with no further attempts. -/
theorem claim5_retry_policy (oracle : Nat → FetchOutcome) (err : Nat → Nat) (n : Nat) :
    (1 ≤ n → (∀ i, i < n → oracle i = FetchOutcome.transportFail (err i)) →
      fetch_html oracle n =
        ⟨Except.error (FetchErr.exhausted (some (err (n - 1)))), n, n⟩)
  ∧ (∀ j t, j < n → (∀ i, i < j → oracle i = FetchOutcome.transportFail (err i)) →
      oracle j = FetchOutcome.ok t →
      fetch_html oracle n = ⟨Except.ok t, j + 1, j⟩) := by
  constructor
  · intro hn hall
    have := fetchGo_all_transport oracle err n 0 none 0 0
      (fun k hk => by simpa using hall k hk)
    rw [fetch_html, this]
    have hne : ¬ n = 0 := by omega
    simp [hne]
  · intro j t hj hpre hok
    have := fetchGo_success oracle err t j n 0 none 0 0 hj
      (fun k hk => by simpa using hpre k hk)
      (by simpa using hok)
    rw [fetch_html, this]
    simp

/-- Witness for C5 at the default 3 attempts: all-transport failure makes 3
attempts, 3 sleeps, and reports the last failure; and a first-attempt
success returns at once. -/
theorem claim5_witness :
    fetch_html (fun i => FetchOutcome.transportFail (i * 10)) 3 =
      ⟨Except.error (FetchErr.exhausted (some 20)), 3, 3⟩ ∧
    fetch_html (fun _ => FetchOutcome.ok ['x']) 3 = ⟨Except.ok ['x'], 1, 0⟩ := by
  constructor
  · exact (claim5_retry_policy (fun i => FetchOutcome.transportFail (i * 10))
      (fun i => i * 10) 3).1 (by omega) (fun i _ => rfl)
  · exact (claim5_retry_policy (fun _ => FetchOutcome.ok ['x'])
      (fun i => i) 3).2 0 ['x'] (by omega) (fun i h => by omega) rfl

/-- C6: a non-2xx status on any attempt ends the fetch at once with the
status failure: the attempt counter stops at that attempt (zero additional
retries) and no further sleep happens. -/
theorem claim6_status_no_retry (oracle : Nat → FetchOutcome) (err : Nat → Nat)
    (n j code : Nat) (hj : j < n)
    (hpre : ∀ i, i < j → oracle i = FetchOutcome.transportFail (err i))
    (hst : oracle j = FetchOutcome.badStatus code) :
    fetch_html oracle n = ⟨Except.error (FetchErr.statusError code), j + 1, j⟩ := by
  have := fetchGo_badStatus oracle err code j n 0 none 0 0 hj
    (fun k hk => by simpa using hpre k hk)
    (by simpa using hst)
  rw [fetch_html, this]
  simp

/-- Witness for C6: a 503 on the second attempt stops after two attempts. -/
theorem claim6_witness :
    fetch_html (fun i => if i = 0 then FetchOutcome.transportFail 5
      else FetchOutcome.badStatus 503) 3 =
      ⟨Except.error (FetchErr.statusError 503), 2, 1⟩ :=
  claim6_status_no_retry _ (fun _ => 5) 3 1 503 (by omega)
    (fun i h => by interval_cases i; rfl) rfl

/-! ## Find lemmas -/

theorem listStartsWith_append (m rest : List Char) :
    listStartsWith (m ++ rest) m = true := by
  induction m with
  | nil => cases rest <;> rfl
  | cons c m ih => simpa [listStartsWith] using ih

theorem listStartsWith_nil_iff (needle : List Char) :
    listStartsWith [] needle = true ↔ needle = [] := by
  cases needle <;> simp [listStartsWith]

theorem matchAt_nil (needle : List Char) (j : Nat) :
    matchAt [] needle j ↔ needle = [] := by
  rw [matchAt, List.drop_nil, listStartsWith_nil_iff]

theorem matchAt_zero (hay needle : List Char) :
    matchAt hay needle 0 ↔ listStartsWith hay needle = true := by
  rw [matchAt, List.drop_zero]

theorem matchAt_cons_succ (c : Char) (cs needle : List Char) (j : Nat) :
    matchAt (c :: cs) needle (j + 1) ↔ matchAt cs needle j := by
  rw [matchAt, matchAt, List.drop_succ_cons]

theorem listStartsWith_iff_get (s m : List Char) :
    listStartsWith s m = true ↔ ∀ i, i < m.length → s.get? i = m.get? i := by
  induction m generalizing s with
  | nil => simp [listStartsWith.eq_def]
  | cons d m ih =>
    cases s with
    | nil =>
      simp only [listStartsWith]
      constructor
      · intro h; cases h
      · intro h
        have := h 0 (by simp)
        simp at this
    | cons c s =>
      simp only [listStartsWith, Bool.and_eq_true, decide_eq_true_eq]
      rw [ih s]
      constructor
      · rintro ⟨rfl, h⟩ i hi
        cases i with
        | zero => rfl
        | succ j => simpa using h j (by simpa using hi)
      · intro h
        constructor
        · have := h 0 (by simp)
          simpa using this
        · intro i hi
          simpa using h (i + 1) (by simpa using hi)

theorem matchAt_iff_get (hay m : List Char) (j : Nat) :
    matchAt hay m j ↔ ∀ i, i < m.length → hay.get? (j + i) = m.get? i := by
  rw [matchAt, listStartsWith_iff_get]
  constructor
  · intro h i hi
    have := h i hi
    rwa [List.get?_drop] at this
  · intro h i hi
    rw [List.get?_drop]
    exact h i hi

theorem matchAt_self (pre m rest : List Char) :
    matchAt (pre ++ m ++ rest) m pre.length := by
  rw [matchAt]
  have : (pre ++ m ++ rest).drop pre.length = m ++ rest := by
    rw [List.append_assoc, List.drop_left]
  rw [this]
  exact listStartsWith_append m rest

theorem strFindAux_eq_some (cs needle : List Char) (k m : Nat)
    (h : strFindAux cs needle k = some m) :
    ∃ j, m = k + j ∧ matchAt cs needle j ∧ ∀ j', j' < j → ¬ matchAt cs needle j' := by
  induction cs generalizing k with
  | nil =>
    rw [strFindAux] at h
    by_cases hn : needle = []
    · rw [if_pos hn] at h
      cases h
      exact ⟨0, by omega, (matchAt_nil needle 0).mpr hn, by omega⟩
    · rw [if_neg hn] at h; cases h
  | cons c cs ih =>
    rw [strFindAux] at h
    by_cases hs : listStartsWith (c :: cs) needle = true
    · rw [if_pos hs] at h
      cases h
      exact ⟨0, by omega, (matchAt_zero _ needle).mpr hs, by omega⟩
    · rw [if_neg hs] at h
      rcases ih (k + 1) h with ⟨j, hm, hmt, hmin⟩
      refine ⟨j + 1, by omega, (matchAt_cons_succ c cs needle j).mpr hmt, ?_⟩
      intro j' hj'
      cases j' with
      | zero => rw [matchAt_zero]; exact hs
      | succ j'' =>
        rw [matchAt_cons_succ]
        exact hmin j'' (by omega)

theorem strFindAux_eq_none (cs needle : List Char) (k : Nat)
    (h : strFindAux cs needle k = none) : ∀ j, ¬ matchAt cs needle j := by
  induction cs generalizing k with
  | nil =>
    rw [strFindAux] at h
    by_cases hn : needle = []
    · rw [if_pos hn] at h; cases h
    · rw [if_neg hn] at h
      intro j hj
      exact hn ((matchAt_nil needle j).mp hj)
  | cons c cs ih =>
    rw [strFindAux] at h
    by_cases hs : listStartsWith (c :: cs) needle = true
    · rw [if_pos hs] at h; cases h
    · rw [if_neg hs] at h
      intro j
      cases j with
      | zero => rw [matchAt_zero]; exact hs
      | succ j' =>
        rw [matchAt_cons_succ]
        exact ih (k + 1) h j'

theorem strFindAux_of_first (cs needle : List Char) (j : Nat)
    (hm : matchAt cs needle j) (hmin : ∀ j', j' < j → ¬ matchAt cs needle j') :
    ∀ k, strFindAux cs needle k = some (k + j) := by
  induction cs generalizing j with
  | nil =>
    intro k
    have hne : needle = [] := (matchAt_nil needle j).mp hm
    have hj : j = 0 := by
      by_contra hj
      exact hmin 0 (by omega) ((matchAt_nil needle 0).mpr hne)
    subst hj
    simp [strFindAux, hne]
  | cons c cs ih =>
    intro k
    rw [strFindAux]
    cases j with
    | zero =>
      rw [if_pos ((matchAt_zero _ needle).mp hm)]
      simp
    | succ j' =>
      have hs : ¬ listStartsWith (c :: cs) needle = true := by
        have := hmin 0 (by omega)
        rw [matchAt_zero] at this
        exact this
      rw [if_neg hs]
      have := ih j' ((matchAt_cons_succ c cs needle j').mp hm)
        (fun j'' hj'' => by
          have := hmin (j'' + 1) (by omega)
          rw [matchAt_cons_succ] at this
          exact this) (k + 1)
      rw [this]
      congr 1
      omega

theorem strFind_eq_none_iff (hay needle : List Char) :
    strFind hay needle = none ↔ ∀ j, ¬ matchAt hay needle j := by
  constructor
  · intro h
    exact strFindAux_eq_none hay needle 0 h
  · intro h
    cases hf : strFind hay needle with
    | none => rfl
    | some m =>
      rcases strFindAux_eq_some hay needle 0 m hf with ⟨j, _, hmt, _⟩
      exact absurd hmt (h j)

theorem strFind_of_first (hay needle : List Char) (j : Nat)
    (hm : matchAt hay needle j) (hmin : ∀ j', j' < j → ¬ matchAt hay needle j') :
    strFind hay needle = some j := by
  have := strFindAux_of_first hay needle j hm hmin 0
  simpa [strFind] using this

theorem occursB_iff (needle hay : List Char) :
    occursB needle hay = true ↔ occursIn needle hay := by
  rw [occursB, occursIn]
  constructor
  · intro h
    rcases Option.isSome_iff_exists.mp h with ⟨m, hm⟩
    rcases strFindAux_eq_some hay needle 0 m hm with ⟨j, _, hmt, _⟩
    exact ⟨j, hmt⟩
  · rintro ⟨j, hj⟩
    cases hf : strFind hay needle with
    | some m => simp [Option.isSome]
    | none => exact absurd hj ((strFind_eq_none_iff hay needle).mp hf j)

theorem charFindAux_eq_some (cs : List Char) (t : Char) (k m : Nat)
    (h : charFindAux cs t k = some m) :
    ∃ j, m = k + j ∧ cs.get? j = some t ∧ ∀ j', j' < j → cs.get? j' ≠ some t := by
  induction cs generalizing k with
  | nil => rw [charFindAux] at h; cases h
  | cons c cs ih =>
    rw [charFindAux] at h
    by_cases hc : c = t
    · rw [if_pos hc] at h
      cases h
      exact ⟨0, by omega, by simp [hc], by omega⟩
    · rw [if_neg hc] at h
      rcases ih (k + 1) h with ⟨j, hm, hj, hmin⟩
      refine ⟨j + 1, by omega, by simpa using hj, ?_⟩
      intro j' hj'
      cases j' with
      | zero => simpa using hc
      | succ j'' => simpa using hmin j'' (by omega)

theorem charFindAux_eq_none (cs : List Char) (t : Char) (k : Nat)
    (h : charFindAux cs t k = none) : ∀ j, cs.get? j ≠ some t := by
  induction cs generalizing k with
  | nil => intro j; simp
  | cons c cs ih =>
    rw [charFindAux] at h
    by_cases hc : c = t
    · rw [if_pos hc] at h; cases h
    · rw [if_neg hc] at h
      intro j
      cases j with
      | zero => simpa using hc
      | succ j' => simpa using ih (k + 1) h j'

theorem charFindAux_of_first (cs : List Char) (t : Char) (j : Nat)
    (hj : cs.get? j = some t) (hmin : ∀ j', j' < j → cs.get? j' ≠ some t) :
    ∀ k, charFindAux cs t k = some (k + j) := by
  induction cs generalizing j with
  | nil => simp at hj
  | cons c cs ih =>
    intro k
    rw [charFindAux]
    cases j with
    | zero =>
      simp only [List.get?] at hj
      rw [if_pos (by injection hj)]
      simp
    | succ j' =>
      have hc : ¬ c = t := by
        have := hmin 0 (by omega)
        simpa using this
      rw [if_neg hc]
      have := ih j' (by simpa using hj)
        (fun j'' hj'' => by simpa using hmin (j'' + 1) (by omega)) (k + 1)
      rw [this]
      congr 1
      omega

theorem charFindFrom_of_first (hay : List Char) (t : Char) (start j : Nat)
    (hstart : start ≤ j) (hj : hay.get? j = some t)
    (hmin : ∀ j', start ≤ j' → j' < j → hay.get? j' ≠ some t) :
    charFindFrom hay t start = some j := by
  rw [charFindFrom]
  have h1 : (hay.drop start).get? (j - start) = some t := by
    rw [List.get?_drop]
    rw [show start + (j - start) = j by omega]
    exact hj
  have h2 : ∀ j', j' < j - start → (hay.drop start).get? j' ≠ some t := by
    intro j' hj'
    rw [List.get?_drop]
    exact hmin (start + j') (by omega) (by omega)
  rw [charFindAux_of_first _ t (j - start) h1 h2 0]
  simp
  omega

theorem charFindFrom_eq_none_iff (hay : List Char) (t : Char) (start : Nat) :
    charFindFrom hay t start = none ↔ ∀ j, start ≤ j → hay.get? j ≠ some t := by
  rw [charFindFrom]
  constructor
  · intro h j hsj
    cases hc : charFindAux (hay.drop start) t 0 with
    | some m => rw [hc] at h; simp at h
    | none =>
      have := charFindAux_eq_none _ t 0 hc (j - start)
      rw [List.get?_drop, show start + (j - start) = j by omega] at this
      exact this
  · intro h
    cases hc : charFindAux (hay.drop start) t 0 with
    | none => rfl
    | some m =>
      rcases charFindAux_eq_some _ t 0 m hc with ⟨j, _, hj, _⟩
      rw [List.get?_drop] at hj
      exact absurd hj (h (start + j) (by omega))

theorem charFindFrom_eq_some (hay : List Char) (t : Char) (start m : Nat)
    (h : charFindFrom hay t start = some m) :
    start ≤ m ∧ hay.get? m = some t ∧
      ∀ j, start ≤ j → j < m → hay.get? j ≠ some t := by
  rw [charFindFrom] at h
  cases hc : charFindAux (hay.drop start) t 0 with
  | none => rw [hc] at h; cases h
  | some m' =>
    rw [hc] at h
    simp only [Option.map_some'] at h
    rcases charFindAux_eq_some _ t 0 m' hc with ⟨j, hj0, hj, hmin⟩
    have hm : m = j + start := by
      injection h with h'
      omega
    subst hm
    rw [List.get?_drop] at hj
    refine ⟨by omega, by rw [show j + start = start + j by omega]; exact hj, ?_⟩
    intro j' hsj' hj'
    have := hmin (j' - start) (by omega)
    rw [List.get?_drop, show start + (j' - start) = j' by omega] at this
    exact this

/-! ## Marker position lemmas -/

theorem plainKeyMarker_length (key : List Char) :
    (plainKeyMarker key).length = key.length + 2 := by
  simp [plainKeyMarker]

theorem escKeyMarker_length (key : List Char) :
    (escKeyMarker key).length = key.length + 4 := by
  simp [escKeyMarker]

theorem plainKeyMarker_get_zero (key : List Char) :
    (plainKeyMarker key).get? 0 = some '"' := rfl

theorem plainKeyMarker_get_mid (key : List Char) (i : Nat) (hi : i < key.length) :
    (plainKeyMarker key).get? (i + 1) = key.get? i := by
  rw [plainKeyMarker, List.cons_append, List.get?_cons_succ]
  exact List.get?_append hi

theorem escKeyMarker_get_zero (key : List Char) :
    (escKeyMarker key).get? 0 = some '\\' := rfl

theorem escKeyMarker_get_one (key : List Char) :
    (escKeyMarker key).get? 1 = some '"' := rfl

theorem escKeyMarker_get_mid (key : List Char) (i : Nat) (hi : i < key.length) :
    (escKeyMarker key).get? (i + 2) = key.get? i := by
  rw [escKeyMarker, List.cons_append, List.cons_append,
    show i + 2 = (i + 1) + 1 by omega, List.get?_cons_succ, List.get?_cons_succ]
  exact List.get?_append hi

theorem doc_get_boundary (pre m tail : List Char) (c : Char) (hm : m.get? 0 = some c) :
    (pre ++ m ++ tail).get? pre.length = some c := by
  have hm0 : 0 < m.length := by
    cases m with
    | nil => simp at hm
    | cons a l => simp
  rw [List.append_assoc, List.get?_append_right (Nat.le_refl _), Nat.sub_self,
    List.get?_append hm0]
  exact hm

theorem doc_get_pre (pre x : List Char) (i : Nat) (hi : i < pre.length) :
    (pre ++ x).get? i = pre.get? i :=
  List.get?_append hi

/-- No occurrence of the plain marker can start strictly before the marker
itself when the raw key is quote-free and absent from the leading filler. -/
theorem no_straddle_plain (pre key tail : List Char)
    (hq : ∀ c ∈ key, c ≠ '"') (hk : ¬ occursIn key pre) :
    ∀ j, j < pre.length →
      ¬ matchAt (pre ++ plainKeyMarker key ++ tail) (plainKeyMarker key) j := by
  intro j hj hmt
  set doc := pre ++ plainKeyMarker key ++ tail with hdoc
  set n := key.length with hn
  set L := pre.length with hL
  have H := (matchAt_iff_get doc (plainKeyMarker key) j).mp hmt
  have hlen : (plainKeyMarker key).length = n + 2 := plainKeyMarker_length key
  have hdL : doc.get? L = some '"' :=
    doc_get_boundary pre (plainKeyMarker key) tail '"' (plainKeyMarker_get_zero key)
  by_cases hcase : j + n < L
  · refine hk ⟨j + 1, (matchAt_iff_get pre key (j + 1)).mpr ?_⟩
    intro i hi
    have h1 : doc.get? (j + (i + 1)) = (plainKeyMarker key).get? (i + 1) :=
      H (i + 1) (by omega)
    rw [plainKeyMarker_get_mid key i hi] at h1
    have h2 : doc.get? (j + (i + 1)) = pre.get? (j + (i + 1)) := by
      rw [hdoc, List.append_assoc]
      exact doc_get_pre pre _ _ (by omega)
    rw [h2] at h1
    rw [show j + 1 + i = j + (i + 1) by omega]
    exact h1
  · have hi0 : 1 ≤ L - j ∧ L - j ≤ n := by omega
    have h1 : doc.get? (j + (L - j)) = (plainKeyMarker key).get? (L - j) :=
      H (L - j) (by omega)
    rw [show j + (L - j) = L by omega] at h1
    rw [hdL] at h1
    have h2 : (plainKeyMarker key).get? (L - j) = key.get? (L - j - 1) := by
      rw [show L - j = (L - j - 1) + 1 by omega]
      exact plainKeyMarker_get_mid key (L - j - 1) (by omega)
    rw [h2] at h1
    have : '"' ∈ key := List.get?_mem h1.symm
    exact hq '"' this rfl

/-- No occurrence of the escaped marker can start strictly before the marker
itself when the raw key is quote- and backslash-free and absent from the
leading filler. -/
theorem no_straddle_esc (pre key tail : List Char)
    (hq : ∀ c ∈ key, c ≠ '"') (hb : ∀ c ∈ key, c ≠ '\\') (hk : ¬ occursIn key pre) :
    ∀ j, j < pre.length →
      ¬ matchAt (pre ++ escKeyMarker key ++ tail) (escKeyMarker key) j := by
  intro j hj hmt
  set doc := pre ++ escKeyMarker key ++ tail with hdoc
  set n := key.length with hn
  set L := pre.length with hL
  have H := (matchAt_iff_get doc (escKeyMarker key) j).mp hmt
  have hlen : (escKeyMarker key).length = n + 4 := escKeyMarker_length key
  have hdL : doc.get? L = some '\\' :=
    doc_get_boundary pre (escKeyMarker key) tail '\\' (escKeyMarker_get_zero key)
  by_cases hcase : j + n + 1 < L
  · refine hk ⟨j + 2, (matchAt_iff_get pre key (j + 2)).mpr ?_⟩
    intro i hi
    have h1 : doc.get? (j + (i + 2)) = (escKeyMarker key).get? (i + 2) :=
      H (i + 2) (by omega)
    rw [escKeyMarker_get_mid key i hi] at h1
    have h2 : doc.get? (j + (i + 2)) = pre.get? (j + (i + 2)) := by
      rw [hdoc, List.append_assoc]
      exact doc_get_pre pre _ _ (by omega)
    rw [h2] at h1
    rw [show j + 2 + i = j + (i + 2) by omega]
    exact h1
  · have hi0 : 1 ≤ L - j ∧ L - j ≤ n + 1 := by omega
    have h1 : doc.get? (j + (L - j)) = (escKeyMarker key).get? (L - j) :=
      H (L - j) (by omega)
    rw [show j + (L - j) = L by omega, hdL] at h1
    by_cases h1case : L - j = 1
    · rw [h1case, escKeyMarker_get_one key] at h1
      injection h1 with h1'
      exact absurd h1' (by decide)
    · have h2 : (escKeyMarker key).get? (L - j) = key.get? (L - j - 2) := by
        rw [show L - j = (L - j - 2) + 2 by omega]
        exact escKeyMarker_get_mid key (L - j - 2) (by omega)
      rw [h2] at h1
      have : '\\' ∈ key := List.get?_mem h1.symm
      exact hb '\\' this rfl

/-! ## Extractor characterization: claims C3 and C10 -/

theorem scanLoop_prefix_det (cs : List Char) (st : ScanSt) (i : Nat)
    (h : scanLoop cs st = some i) (ext : List Char) :
    scanLoop (cs.take (i + 1) ++ ext) st = some i := by
  induction cs generalizing st i with
  | nil => simp [scanLoop] at h
  | cons c cs ih =>
    rw [scanLoop_cons] at h
    by_cases hc : (!(sstep st c).inStr && c = '}' && (sstep st c).depth = 0) = true
    · rw [if_pos hc] at h
      cases h
      rw [List.take_succ_cons, List.take_zero, List.cons_append, List.nil_append,
        scanLoop_cons, if_pos hc]
    · rw [if_neg hc] at h
      rcases Option.map_eq_some'.mp h with ⟨j, hj, rfl⟩
      rw [List.take_succ_cons, List.cons_append, scanLoop_cons, if_neg hc, ih _ _ hj]
      rfl

theorem findKeyIdx_eq_none_iff (html key : List Char) :
    findKeyIdx html key = none ↔
      ¬ occursIn (plainKeyMarker key) html ∧ ¬ occursIn (escKeyMarker key) html := by
  cases hp : strFind html (plainKeyMarker key) with
  | some m =>
    constructor
    · intro h
      rw [findKeyIdx, hp] at h
      cases h
    · rintro ⟨h1, -⟩
      exfalso
      rcases strFindAux_eq_some html (plainKeyMarker key) 0 m hp with ⟨j, -, hmt, -⟩
      exact h1 ⟨j, hmt⟩
  | none =>
    have hrw : findKeyIdx html key = strFind html (escKeyMarker key) := by
      rw [findKeyIdx, hp]
    rw [hrw]
    have hp' := strFind_eq_none_iff html (plainKeyMarker key) |>.mp hp
    cases he : strFind html (escKeyMarker key) with
    | some m =>
      constructor
      · intro h; cases h
      · rintro ⟨-, h2⟩
        exfalso
        rcases strFindAux_eq_some html (escKeyMarker key) 0 m he with ⟨j, -, hmt, -⟩
        exact h2 ⟨j, hmt⟩
    | none =>
      simp only [true_iff]
      have he' := strFind_eq_none_iff html (escKeyMarker key) |>.mp he
      exact ⟨fun ⟨j, hj⟩ => hp' j hj, fun ⟨j, hj⟩ => he' j hj⟩

theorem extract_eq_cases (html key : List Char) :
    (findKeyIdx html key = none ∧
      extract_json_object html key = Except.error ExtractErr.keyNotFound) ∨
    (∃ idx, findKeyIdx html key = some idx ∧ charFindFrom html '{' idx = none ∧
      extract_json_object html key = Except.error ExtractErr.noBrace) ∨
    (∃ idx start, findKeyIdx html key = some idx ∧
      charFindFrom html '{' idx = some start ∧
      scanLoop (html.drop start) scanInit = none ∧
      extract_json_object html key = Except.error ExtractErr.unclosed) ∨
    (∃ idx start i, findKeyIdx html key = some idx ∧
      charFindFrom html '{' idx = some start ∧
      scanLoop (html.drop start) scanInit = some i ∧
      extract_json_object html key =
        (safe_json_load ((html.drop start).take (i + 1))).mapError ExtractErr.decodeFail) := by
  cases hf : findKeyIdx html key with
  | none => exact Or.inl ⟨rfl, by simp [extract_json_object, hf]⟩
  | some idx =>
    cases hc : charFindFrom html '{' idx with
    | none =>
      exact Or.inr (Or.inl ⟨idx, rfl, hc, by simp [extract_json_object, hf, hc]⟩)
    | some start =>
      cases hs : scanLoop (html.drop start) scanInit with
      | none =>
        exact Or.inr (Or.inr (Or.inl
          ⟨idx, start, rfl, hc, hs, by simp [extract_json_object, hf, hc, hs]⟩))
      | some i =>
        refine Or.inr (Or.inr (Or.inr ⟨idx, start, i, rfl, hc, hs, ?_⟩))
        cases hl : safe_json_load ((html.drop start).take (i + 1)) with
        | ok v => simp [extract_json_object, hf, hc, hs, Except.mapError, hl]
        | error e => simp [extract_json_object, hf, hc, hs, Except.mapError, hl]

theorem mapError_ne_plain (s : List Char) (e : ExtractErr)
    (he : e = ExtractErr.keyNotFound ∨ e = ExtractErr.noBrace ∨ e = ExtractErr.unclosed) :
    (safe_json_load s).mapError ExtractErr.decodeFail ≠ Except.error e := by
  cases hl : safe_json_load s with
  | ok v => simp [Except.mapError, hl]
  | error e' =>
    simp only [Except.mapError, hl]
    intro h
    injection h with h'
    rcases he with rfl | rfl | rfl <;> cases h'

/-- C3 (amended): `extract` fails with the key-not-found error exactly when
the key occurs in neither the plain nor the escaped quoted form; when the key
is found, it fails with one of the two malformed errors exactly when no `{`
occurs at or after the found position or the brace depth never returns to
zero before end-of-document; otherwise it returns the result of the safe
decoder applied to the delimited substring — which may itself fail with a
decode error (the original claim said a record is always returned here; the
counterexample refutes that, and this is the minimal repair). -/
theorem claim3_error_characterization_amended (html key : List Char) :
    (extract_json_object html key = Except.error ExtractErr.keyNotFound ↔
      ¬ occursIn (plainKeyMarker key) html ∧ ¬ occursIn (escKeyMarker key) html)
  ∧ (∀ idx, findKeyIdx html key = some idx →
      ((extract_json_object html key = Except.error ExtractErr.noBrace ∨
        extract_json_object html key = Except.error ExtractErr.unclosed) ↔
        ((∀ j, idx ≤ j → html.get? j ≠ some '{') ∨
         (∃ start, charFindFrom html '{' idx = some start ∧
           ∀ i, ¬ closesAt (html.drop start) scanInit i))))
  ∧ (∀ idx start i, findKeyIdx html key = some idx →
      charFindFrom html '{' idx = some start →
      scanLoop (html.drop start) scanInit = some i →
      extract_json_object html key =
        (safe_json_load ((html.drop start).take (i + 1))).mapError ExtractErr.decodeFail) := by
  refine ⟨?_, ?_, ?_⟩
  · rw [← findKeyIdx_eq_none_iff]
    constructor
    · intro h
      rcases extract_eq_cases html key with ⟨hf, -⟩ | ⟨idx, -, -, hx⟩ |
        ⟨idx, start, -, -, -, hx⟩ | ⟨idx, start, i, -, -, -, hx⟩
      · exact hf
      · rw [hx] at h; cases h
      · rw [hx] at h; cases h
      · rw [hx] at h
        exact absurd h (mapError_ne_plain _ _ (Or.inl rfl))
    · intro hf
      simp [extract_json_object, hf]
  · intro idx hf
    rcases extract_eq_cases html key with ⟨hf', -⟩ | ⟨idx', hf', hc, hx⟩ |
      ⟨idx', start, hf', hc, hs, hx⟩ | ⟨idx', start, i, hf', hc, hs, hx⟩
    · rw [hf] at hf'; cases hf'
    · rw [hf] at hf'
      injection hf' with h'
      subst h'
      rw [hx]
      constructor
      · intro _
        exact Or.inl ((charFindFrom_eq_none_iff html '{' idx).mp hc)
      · intro _
        exact Or.inl rfl
    · rw [hf] at hf'
      injection hf' with h'
      subst h'
      rw [hx]
      constructor
      · intro _
        exact Or.inr ⟨start, hc, (scanLoop_eq_none_iff _ scanInit).mp hs⟩
      · intro _
        exact Or.inr rfl
    · rw [hf] at hf'
      injection hf' with h'
      subst h'
      rw [hx]
      constructor
      · intro h
        exfalso
        rcases h with h | h
        · exact mapError_ne_plain _ _ (Or.inr (Or.inl rfl)) h
        · exact mapError_ne_plain _ _ (Or.inr (Or.inr rfl)) h
      · intro h
        exfalso
        rcases charFindFrom_eq_some html '{' idx start hc with ⟨hsi, hsg, -⟩
        rcases h with h | h
        · exact h start hsi hsg
        · rcases h with ⟨start', hstart', hno⟩
          rw [hc] at hstart'
          injection hstart' with hss
          subst hss
          exact hno i (scanLoop_eq_some_closes _ scanInit i hs).1
  · intro idx start i hf hc hs
    rcases extract_eq_cases html key with ⟨hf', -⟩ | ⟨idx', hf', hc', -⟩ |
      ⟨idx', start', hf', hc', hs', -⟩ | ⟨idx', start', i', hf', hc', hs', hx⟩
    · rw [hf] at hf'; cases hf'
    · rw [hf] at hf'
      injection hf' with h'
      subst h'
      rw [hc] at hc'; cases hc'
    · rw [hf] at hf'
      injection hf' with h'
      subst h'
      rw [hc] at hc'
      injection hc' with h''
      subst h''
      rw [hs] at hs'; cases hs'
    · rw [hf] at hf'
      injection hf' with h'
      subst h'
      rw [hc] at hc'
      injection hc' with h''
      subst h''
      rw [hs] at hs'
      injection hs' with h'''
      subst h'''
      exact hx

/-- Counterexample to C3 as stated: in `"k"{x}` the key is found, a brace
follows and the braces balance, yet `extract` does not return a record — the
delimited text `{x}` fails to decode and the decode failure escapes. -/
theorem claim3_counterexample :
    extract_json_object ['"', 'k', '"', '{', 'x', '}'] ['k'] =
      Except.error (ExtractErr.decodeFail ⟨['{', 'x', '}'], 1⟩) ∧
    ∀ v, extract_json_object ['"', 'k', '"', '{', 'x', '}'] ['k'] ≠ Except.ok v := by
  constructor
  · rfl
  · intro v h
    rw [(by rfl : extract_json_object ['"', 'k', '"', '{', 'x', '}'] ['k'] =
      Except.error (ExtractErr.decodeFail ⟨['{', 'x', '}'], 1⟩))] at h
    cases h

/-- Witness for C3: on the document `"k"` (key present, no brace anywhere)
the characterization yields the no-brace condition. -/
theorem claim3_witness :
    (∀ j, 0 ≤ j → (['"', 'k', '"'] : List Char).get? j ≠ some '{') ∨
    (∃ start, charFindFrom ['"', 'k', '"'] '{' 0 = some start ∧
      ∀ i, ¬ closesAt ((['"', 'k', '"'] : List Char).drop start) scanInit i) :=
  ((claim3_error_characterization_amended ['"', 'k', '"'] ['k']).2.1 0 rfl).mp
    (Or.inl rfl)

/-- C10: totality of the extractor. On every document and key the extractor
yields exactly one of: a decoded record, the key-not-found error, the
no-opening-brace error, the unbalanced-braces error, or a decode failure on
the delimited substring. Its scanner performs at most one iteration per
document character (a single left-to-right pass); the closing position it
returns lies inside the document, so the delimited substring is in bounds;
and the scan's answer is already determined by the prefix it consumed, so no
position beyond the returned one is ever needed. -/
theorem claim10_totality (html key : List Char) :
    (extract_json_object html key = Except.error ExtractErr.keyNotFound ∨
     extract_json_object html key = Except.error ExtractErr.noBrace ∨
     extract_json_object html key = Except.error ExtractErr.unclosed ∨
     (∃ e, extract_json_object html key = Except.error (ExtractErr.decodeFail e)) ∨
     (∃ v, extract_json_object html key = Except.ok v))
  ∧ extractScanSteps html key ≤ html.length
  ∧ (∀ idx start i, findKeyIdx html key = some idx →
      charFindFrom html '{' idx = some start →
      scanLoop (html.drop start) scanInit = some i →
      start + i < html.length ∧
      ∀ ext, scanLoop ((html.drop start).take (i + 1) ++ ext) scanInit = some i) := by
  refine ⟨?_, ?_, ?_⟩
  · rcases extract_eq_cases html key with ⟨-, hx⟩ | ⟨idx, -, -, hx⟩ |
      ⟨idx, start, -, -, -, hx⟩ | ⟨idx, start, i, -, -, -, hx⟩
    · exact Or.inl hx
    · exact Or.inr (Or.inl hx)
    · exact Or.inr (Or.inr (Or.inl hx))
    · cases hl : safe_json_load ((html.drop start).take (i + 1)) with
      | ok v =>
        refine Or.inr (Or.inr (Or.inr (Or.inr ⟨v, ?_⟩)))
        rw [hx, hl]; rfl
      | error e =>
        refine Or.inr (Or.inr (Or.inr (Or.inl ⟨e, ?_⟩)))
        rw [hx, hl]; rfl
  · cases hf : findKeyIdx html key with
    | none => simp [extractScanSteps, hf]
    | some idx =>
      cases hc : charFindFrom html '{' idx with
      | none => simp [extractScanSteps, hf, hc]
      | some start =>
        have h1 := scanSteps_le_length (html.drop start) scanInit
        have h2 : (html.drop start).length = html.length - start := List.length_drop start html
        simp only [extractScanSteps, hf, hc]
        omega
  · intro idx start i _ hc hs
    rcases charFindFrom_eq_some html '{' idx start hc with ⟨-, hsg, -⟩
    have hstart : start < html.length := by
      by_contra hge
      rw [List.get?_eq_none.mpr (by omega)] at hsg
      cases hsg
    have hi := scanLoop_some_lt_length _ _ _ hs
    rw [List.length_drop] at hi
    exact ⟨by omega, fun ext => scanLoop_prefix_det _ _ _ hs ext⟩

/-- Witness for C10 on the document `"k"{}`: the scanner's step count is
bounded by the document length and the returned close position is in
bounds. -/
theorem claim10_witness :
    extractScanSteps ['"', 'k', '"', '{', '}'] ['k'] ≤
      (['"', 'k', '"', '{', '}'] : List Char).length ∧
    3 + 1 < (['"', 'k', '"', '{', '}'] : List Char).length :=
  ⟨(claim10_totality ['"', 'k', '"', '{', '}'] ['k']).2.1,
   ((claim10_totality ['"', 'k', '"', '{', '}'] ['k']).2.2 0 3 1 rfl rfl rfl).1⟩

/-! ## Cache lemmas and resolver claims C7, C8 -/

theorem cacheLookup_append_of_ne (xs ys : List CacheEntry) (k : List Char) (now : Nat)
    (h : ∀ e, e ∈ xs → e.key ≠ k) :
    cacheLookup (xs ++ ys) k now = cacheLookup ys k now := by
  induction xs with
  | nil => rfl
  | cons e xs ih =>
    rw [List.cons_append, cacheLookup]
    rw [if_neg (by
      rintro ⟨hk, -⟩
      exact h e (by simp) hk)]
    exact ih (fun e' he' => h e' (by simp [he']))

theorem cacheInsert_mem_front (c : VCache) (k : List Char) (v : Json)
    (now ttl maxsize : Nat) :
    ∃ kept, cacheInsert c k v now ttl maxsize = kept ++ [⟨k, v, now + ttl⟩] ∧
      ∀ e, e ∈ kept → e.key ≠ k := by
  rw [cacheInsert]
  refine ⟨_, rfl, ?_⟩
  intro e he
  have hmem : e ∈ (c.filter (fun e => now < e.expire)).filter (fun e => ¬ e.key = k) := by
    by_cases hsz : maxsize ≤ ((c.filter (fun e => now < e.expire)).filter (fun e => ¬ e.key = k)).length
    · rw [if_pos hsz] at he
      exact List.drop_subset _ _ he
    · rw [if_neg hsz] at he
      exact he
  have := (List.mem_filter.mp hmem).2
  simpa using this

theorem cacheLookup_insert_self (c : VCache) (k : List Char) (v : Json)
    (now ttl maxsize now' : Nat) (hnow : now' < now + ttl) :
    cacheLookup (cacheInsert c k v now ttl maxsize) k now' = some v := by
  rcases cacheInsert_mem_front c k v now ttl maxsize with ⟨kept, heq, hne⟩
  rw [heq, cacheLookup_append_of_ne kept _ k now' hne, cacheLookup]
  rw [if_pos ⟨rfl, hnow⟩]

theorem cacheLookup_none_later (c : VCache) (k : List Char) (now now2 : Nat)
    (h : cacheLookup c k now = none) (hle : now ≤ now2) :
    cacheLookup c k now2 = none := by
  induction c with
  | nil => rfl
  | cons e c ih =>
    rw [cacheLookup] at h ⊢
    by_cases hc : e.key = k ∧ now < e.expire
    · rw [if_pos hc] at h; cases h
    · rw [if_neg hc] at h
      rw [if_neg (by
        rintro ⟨hk, hexp⟩
        exact hc ⟨hk, by omega⟩)]
      exact ih h

/-- C7: a present, unexpired cache entry is returned without invoking the
Fetcher and without touching the cache; a miss that resolves successfully
stores the record with the fresh expiry `now + ttl` before returning it, and
a second resolve before that expiry returns the record without fetching. -/
theorem claim7_cache_contract (oracle : Nat → FetchOutcome) (retries : Nat)
    (vrm : List Char) (c : VCache) (now ttl maxsize : Nat) :
    (∀ v, cacheLookup c vrm now = some v →
      get_vehicle_info oracle retries vrm c now ttl maxsize = ⟨Except.ok v, c, false⟩)
  ∧ (∀ html info, cacheLookup c vrm now = none →
      (fetch_html oracle retries).result = Except.ok html →
      parse_html html = Except.ok info →
      get_vehicle_info oracle retries vrm c now ttl maxsize =
        ⟨Except.ok info, cacheInsert c vrm info now ttl maxsize, true⟩ ∧
      (∀ (oracle2 : Nat → FetchOutcome) (retries2 now' : Nat), now' < now + ttl →
        get_vehicle_info oracle2 retries2 vrm
            (cacheInsert c vrm info now ttl maxsize) now' ttl maxsize =
          ⟨Except.ok info, cacheInsert c vrm info now ttl maxsize, false⟩)) := by
  constructor
  · intro v hv
    simp [get_vehicle_info, hv]
  · intro html info hmiss hfetch hparse
    constructor
    · simp [get_vehicle_info, hmiss, hfetch, hparse]
    · intro oracle2 retries2 now' hnow'
      have hhit := cacheLookup_insert_self c vrm info now ttl maxsize now' hnow'
      simp [get_vehicle_info, hhit]

/-- Witness for C7: a record stored on a miss at time 0 with TTL 10 is
returned from the cache (no fetch) at time 5. -/
theorem claim7_witness :
    get_vehicle_info (fun _ => FetchOutcome.badStatus 500) 3 ['A']
        (cacheInsert [] ['A'] (Json.obj []) 0 10 5) 5 10 5 =
      ⟨Except.ok (Json.obj []), cacheInsert [] ['A'] (Json.obj []) 0 10 5, false⟩ :=
  ((claim7_cache_contract (fun _ => FetchOutcome.ok (plainKeyMarker vrmKey ++ [':', '{', '}']))
      3 ['A'] [] 0 10 5).2
    (plainKeyMarker vrmKey ++ [':', '{', '}']) (Json.obj []) rfl rfl rfl).2
    (fun _ => FetchOutcome.badStatus 500) 3 5 (by omega)

/-- C8 (amended): whenever the resolution pipeline as a whole fails — the
fetch failed, or parsing (including the regex fallback) produced no record —
the failure is returned to the caller, the cache is left exactly as it was,
and a later identical request misses the cache again and re-invokes the
Fetcher. (As originally stated the claim is refuted by the counterexample:
a decode failure inside the brace-counting extractor can be recovered by the
regex fallback, in which case resolution succeeds and the record is
cached.) -/
theorem claim8_failure_not_cached_amended (oracle : Nat → FetchOutcome) (retries : Nat)
    (vrm : List Char) (c : VCache) (now ttl maxsize : Nat) (e : ResolveErr)
    (h : (get_vehicle_info oracle retries vrm c now ttl maxsize).result = Except.error e) :
    (get_vehicle_info oracle retries vrm c now ttl maxsize).cache2 = c ∧
    (get_vehicle_info oracle retries vrm c now ttl maxsize).fetched = true ∧
    ∀ (oracle2 : Nat → FetchOutcome) (now2 : Nat), now ≤ now2 →
      (get_vehicle_info oracle2 retries vrm c now2 ttl maxsize).fetched = true := by
  have hmiss : cacheLookup c vrm now = none := by
    cases hl : cacheLookup c vrm now with
    | none => rfl
    | some v =>
      rw [(by simp [get_vehicle_info, hl] :
        get_vehicle_info oracle retries vrm c now ttl maxsize = ⟨Except.ok v, c, false⟩)] at h
      cases h
  have hmiss2 : ∀ now2, now ≤ now2 → cacheLookup c vrm now2 = none :=
    fun now2 hle => cacheLookup_none_later c vrm now now2 hmiss hle
  have hfetched : ∀ (oracle2 : Nat → FetchOutcome) (now2 : Nat), now ≤ now2 →
      (get_vehicle_info oracle2 retries vrm c now2 ttl maxsize).fetched = true := by
    intro oracle2 now2 hle
    have hm := hmiss2 now2 hle
    cases hf : (fetch_html oracle2 retries).result with
    | error e2 => simp [get_vehicle_info, hm, hf]
    | ok html =>
      cases hp : parse_html html with
      | error e2 => simp [get_vehicle_info, hm, hf, hp]
      | ok info => simp [get_vehicle_info, hm, hf, hp]
  refine ⟨?_, ?_, hfetched⟩
  · cases hf : (fetch_html oracle retries).result with
    | error e2 => simp [get_vehicle_info, hmiss, hf]
    | ok html =>
      cases hp : parse_html html with
      | error e2 => simp [get_vehicle_info, hmiss, hf, hp]
      | ok info =>
        rw [(by simp [get_vehicle_info, hmiss, hf, hp] :
          get_vehicle_info oracle retries vrm c now ttl maxsize =
            ⟨Except.ok info, cacheInsert c vrm info now ttl maxsize, true⟩)] at h
        cases h
  · exact hfetched oracle now (Nat.le_refl now)

/-- Counterexample to C8 as stated: in this document the decode stage fails
on the brace-counting extractor's delimited text `{bad}`, yet resolution does
not propagate that failure — the regex fallback recovers a record from the
second occurrence of the key, the call succeeds, and an entry IS inserted
into the cache for the identifier. -/
theorem claim8_counterexample :
    (∃ e, extract_json_object
        (plainKeyMarker vrmKey ++ ['{', 'b', 'a', 'd', '}', ' '] ++
          plainKeyMarker vrmKey ++ [':', ' ', '{', '"', 'a', '"', ':', '1', '}']) vrmKey =
      Except.error (ExtractErr.decodeFail e)) ∧
    get_vehicle_info
        (fun _ => FetchOutcome.ok
          (plainKeyMarker vrmKey ++ ['{', 'b', 'a', 'd', '}', ' '] ++
            plainKeyMarker vrmKey ++ [':', ' ', '{', '"', 'a', '"', ':', '1', '}']))
        3 ['A', 'B'] [] 0 10 5 =
      ⟨Except.ok (Json.obj [(['a'], Json.num 1)]),
       [⟨['A', 'B'], Json.obj [(['a'], Json.num 1)], 10⟩], true⟩ := by
  constructor
  · exact ⟨⟨['{', 'b', 'a', 'd', '}'], 1⟩, by rfl⟩
  · rfl

/-- Witness for C8 (amended): a fetch that always times out leaves the cache
empty and a later identical request fetches again. -/
theorem claim8_witness :
    (get_vehicle_info (fun _ => FetchOutcome.transportFail 7) 3 ['A'] [] 0 10 5).cache2 = [] ∧
    (get_vehicle_info (fun _ => FetchOutcome.transportFail 7) 3 ['A'] [] 0 10 5).fetched = true ∧
    ∀ (oracle2 : Nat → FetchOutcome) (now2 : Nat), 0 ≤ now2 →
      (get_vehicle_info oracle2 3 ['A'] [] now2 10 5).fetched = true :=
  claim8_failure_not_cached_amended (fun _ => FetchOutcome.transportFail 7) 3 ['A'] [] 0 10 5
    (ResolveErr.upstream (FetchErr.exhausted (some 7))) rfl

/-! ## Regex fallback: claim C9 -/

/-- C9 (amended): the primary resolution path does perform regex-based
fallback extraction. A success of the brace-counting extractor is returned
as-is; on any extractor failure the fallback regex is attempted, and the
extractor's own error kind is discarded: if the regex finds a group that
decodes, resolution succeeds with that record; otherwise resolution fails
with the single generic no-data failure (the 404), whatever the extractor's
error was. In particular a truncated object (no closing brace) does not
surface as a distinct malformed-kind failure. -/
theorem claim9_fallback_amended :
    (∀ html v, extract_json_object html vrmKey = Except.ok v →
      parse_html html = Except.ok v)
  ∧ (∀ html e, extract_json_object html vrmKey = Except.error e →
      regexSearchVrm html = none →
      parse_html html = Except.error ParseHtmlErr.noData)
  ∧ (∀ html e g v, extract_json_object html vrmKey = Except.error e →
      regexSearchVrm html = some g → safe_json_load g = Except.ok v →
      parse_html html = Except.ok v)
  ∧ (∀ html e g e2, extract_json_object html vrmKey = Except.error e →
      regexSearchVrm html = some g → safe_json_load g = Except.error e2 →
      parse_html html = Except.error ParseHtmlErr.noData) := by
  refine ⟨?_, ?_, ?_, ?_⟩
  · intro html v hx
    simp [parse_html, hx]
  · intro html e hx hr
    simp [parse_html, hx, hr]
  · intro html e g v hx hr hl
    simp [parse_html, hx, hr, hl]
  · intro html e g e2 hx hr hl
    simp [parse_html, hx, hr, hl]

/-- Counterexample to C9 as stated: the spec's truncated document
`"VrmDetails":{"M":1` makes the brace-counting extractor fail with the
unbalanced-braces (Malformed) error, but resolution does not surface that
kind: it fails with the generic no-data failure — the very same failure a
document containing no key at all produces — so the claim that such a
document "fails with Malformed (not NotFound or any other kind)" is false of
the code. -/
theorem claim9_counterexample :
    extract_json_object (plainKeyMarker vrmKey ++ [':', '{', '"', 'M', '"', ':', '1']) vrmKey =
      Except.error ExtractErr.unclosed ∧
    parse_html (plainKeyMarker vrmKey ++ [':', '{', '"', 'M', '"', ':', '1']) =
      Except.error ParseHtmlErr.noData ∧
    parse_html ['n', 'o', 'n', 'e'] = Except.error ParseHtmlErr.noData ∧
    (get_vehicle_info
        (fun _ => FetchOutcome.ok (plainKeyMarker vrmKey ++ [':', '{', '"', 'M', '"', ':', '1']))
        3 ['A'] [] 0 10 5).result = Except.error ResolveErr.noData := by
  exact ⟨rfl, rfl, rfl, rfl⟩

/-- Witness for C9 (amended): the truncated document goes through the
fallback branch and yields the generic no-data failure. -/
theorem claim9_witness :
    parse_html (plainKeyMarker vrmKey ++ [':', '{', '"', 'M', '"', ':', '1']) =
      Except.error ParseHtmlErr.noData :=
  claim9_fallback_amended.2.1 (plainKeyMarker vrmKey ++ [':', '{', '"', 'M', '"', ':', '1'])
    ExtractErr.unclosed rfl rfl

/-! ## Safe decoder: claim C4 -/

/-- C4: the safe decoder returns a primary decode success immediately with
the fallback never attempted; on a primary failure the candidate is
unescaped one level and decoding is retried (so a one-level double-escaped
string decodes via the fallback, as the third conjunct shows concretely);
and when the retry fails too — or the unescaping itself fails — the error
surfaced is the original primary error. -/
theorem claim4_safe_decoder :
    (∀ s v, loads s = Except.ok v → safe_json_load_t s = (Except.ok v, false))
  ∧ (∀ s e, loads s = Except.error e →
      (safe_json_load_t s).2 = true ∧
      (∀ u v, pyUnicodeEscape s = some u → loads u = Except.ok v →
        safe_json_load s = Except.ok v) ∧
      (∀ u e2, pyUnicodeEscape s = some u → loads u = Except.error e2 →
        safe_json_load s = Except.error e) ∧
      (pyUnicodeEscape s = none → safe_json_load s = Except.error e))
  ∧ safe_json_load_t ['{', '\\', '"', 'a', '\\', '"', ':', '1', '}'] =
      (Except.ok (Json.obj [(['a'], Json.num 1)]), true) := by
  refine ⟨?_, ?_, by rfl⟩
  · intro s v h
    simp [safe_json_load_t, h]
  · intro s e h
    refine ⟨?_, ?_, ?_, ?_⟩
    · cases hu : pyUnicodeEscape s with
      | none => simp [safe_json_load_t, h, hu]
      | some u =>
        cases hl : loads u with
        | ok v => simp [safe_json_load_t, h, hu, hl]
        | error e2 => simp [safe_json_load_t, h, hu, hl]
    · intro u v hu hl
      simp [safe_json_load, safe_json_load_t, h, hu, hl]
    · intro u e2 hu hl
      simp [safe_json_load, safe_json_load_t, h, hu, hl]
    · intro hu
      simp [safe_json_load, safe_json_load_t, h, hu]

/-- Witness for C4: `x` is invalid JSON, its unescape is itself, the retry
fails, and the surfaced error is the original one (position 0 in `x`). -/
theorem claim4_witness :
    safe_json_load ['x'] = Except.error ⟨['x'], 0⟩ :=
  ((claim4_safe_decoder.2.1 ['x'] ⟨['x'], 0⟩ rfl).2.2.1) ['x'] ⟨['x'], 0⟩ rfl rfl

/-! ## Scanner neutrality over serialized JSON (towards claim C1) -/

theorem toNat_ofNat_valid (n : Nat) (h : Nat.isValidChar n) :
    (Char.ofNat n).toNat = n := by
  unfold Char.ofNat
  rw [dif_pos h]
  rfl

theorem char_ne_of_toNat {a b : Char} (h : a.toNat ≠ b.toNat) : a ≠ b :=
  fun he => h (he ▸ rfl)

theorem hexDigitCh_toNat (x : Nat) (hx : x < 16) :
    (hexDigitCh x).toNat = if x < 10 then 48 + x else 87 + x := by
  rw [hexDigitCh]
  by_cases h : x < 10
  · rw [if_pos h, if_pos h, toNat_ofNat_valid _ (Or.inl (by omega))]
  · rw [if_neg h, if_neg h, toNat_ofNat_valid _ (Or.inl (by omega))]

theorem hexDigitCh_ne_quote (x : Nat) (hx : x < 16) : hexDigitCh x ≠ '"' := by
  apply char_ne_of_toNat
  rw [hexDigitCh_toNat x hx, (by rfl : ('"').toNat = 34)]
  by_cases h : x < 10 <;> simp [h] <;> omega

theorem hexDigitCh_ne_bslash (x : Nat) (hx : x < 16) : hexDigitCh x ≠ '\\' := by
  apply char_ne_of_toNat
  rw [hexDigitCh_toNat x hx, (by rfl : ('\\').toNat = 92)]
  by_cases h : x < 10 <;> simp [h] <;> omega

theorem sstep_plain (st : ScanSt) (c : Char)
    (h1 : c ≠ '"') (h2 : c ≠ '\\') (h3 : c ≠ '{') (h4 : c ≠ '}') :
    sstep st c = ⟨st.depth, st.inStr, false⟩ := by
  simp [sstep, h1, h2, h3, h4]

theorem scanNeutral_nil (st : ScanSt) : ScanNeutral [] st := ⟨rfl, rfl⟩

theorem scanNeutral_append (a b : List Char) (st : ScanSt)
    (ha : ScanNeutral a st) (hb : ScanNeutral b st) : ScanNeutral (a ++ b) st := by
  refine ⟨?_, ?_⟩
  · rw [scanLoop_append_none a b st ha.1, ha.2, hb.1]; rfl
  · rw [srun_append, ha.2, hb.2]

theorem scanNeutral_plain_cons (st : ScanSt) (c : Char) (cs : List Char)
    (hesc : st.esc = false)
    (h1 : c ≠ '"') (h2 : c ≠ '\\') (h3 : c ≠ '{') (h4 : c ≠ '}')
    (hcs : ScanNeutral cs st) : ScanNeutral (c :: cs) st := by
  have hst : sstep st c = st := by
    rw [sstep_plain st c h1 h2 h3 h4, ← hesc]
  refine ⟨?_, ?_⟩
  · rw [scanLoop_cons, hst, if_neg (by simp [h4]), hcs.1]; rfl
  · rw [srun_cons, hst]; exact hcs.2

theorem scanNeutral_plain_list (st : ScanSt) (cs : List Char) (hesc : st.esc = false)
    (h : ∀ c ∈ cs, c ≠ '"' ∧ c ≠ '\\' ∧ c ≠ '{' ∧ c ≠ '}') : ScanNeutral cs st := by
  induction cs with
  | nil => exact scanNeutral_nil st
  | cons c cs ih =>
    rcases h c (by simp) with ⟨h1, h2, h3, h4⟩
    exact scanNeutral_plain_cons st c cs hesc h1 h2 h3 h4
      (ih (fun c' hc' => h c' (by simp [hc'])))

theorem scanNeutral_escCharJ (d : Int) (c : Char) :
    ScanNeutral (escCharJ c) ⟨d, true, false⟩ := by
  by_cases h1 : c = '"'
  · subst h1
    constructor <;> simp [escCharJ, scanLoop, sstep, srun]
  by_cases h2 : c = '\\'
  · subst h2
    constructor <;> simp [escCharJ, scanLoop, sstep, srun]
  by_cases h3 : c.toNat < 32
  · have e1 : escCharJ c =
        ['\\', 'u', '0', '0', hexDigitCh (c.toNat / 16), hexDigitCh (c.toNat % 16)] := by
      rw [escCharJ, if_neg h1, if_neg h2, if_pos h3]
    have q1 := hexDigitCh_ne_quote (c.toNat / 16) (by omega)
    have q2 := hexDigitCh_ne_quote (c.toNat % 16) (by omega)
    have b1 := hexDigitCh_ne_bslash (c.toNat / 16) (by omega)
    have b2 := hexDigitCh_ne_bslash (c.toNat % 16) (by omega)
    rw [e1]
    constructor <;> simp [scanLoop, sstep, srun, q1, q2, b1, b2]
  · have e1 : escCharJ c = [c] := by
      rw [escCharJ, if_neg h1, if_neg h2, if_neg h3]
    rw [e1]
    constructor <;> simp [scanLoop, sstep, srun, h1, h2]

theorem scanNeutral_strBody (d : Int) (s : List Char) :
    ScanNeutral (s.flatMap escCharJ) ⟨d, true, false⟩ := by
  induction s with
  | nil => exact scanNeutral_nil _
  | cons c s ih =>
    rw [List.flatMap_cons]
    exact scanNeutral_append _ _ _ (scanNeutral_escCharJ d c) ih

theorem sstep_quote_open (d : Int) : sstep ⟨d, false, false⟩ '"' = ⟨d, true, false⟩ := by
  simp [sstep]

theorem sstep_quote_close (d : Int) : sstep ⟨d, true, false⟩ '"' = ⟨d, false, false⟩ := by
  simp [sstep]

theorem sstep_open_brace (d : Int) : sstep ⟨d, false, false⟩ '{' = ⟨d + 1, false, false⟩ := by
  simp [sstep]

theorem sstep_close_brace (d : Int) : sstep ⟨d, false, false⟩ '}' = ⟨d - 1, false, false⟩ := by
  simp [sstep]

theorem scanNeutral_dumpStr (d : Int) (s : List Char) :
    ScanNeutral (dumpStr s) ⟨d, false, false⟩ := by
  have hbody := scanNeutral_strBody d s
  have hclose : scanLoop ['"'] ⟨d, true, false⟩ = none ∧
      srun ⟨d, true, false⟩ ['"'] = ⟨d, false, false⟩ := by
    constructor <;> simp [scanLoop, sstep, srun]
  constructor
  · rw [dumpStr, List.cons_append, scanLoop_cons, sstep_quote_open]
    rw [if_neg (by simp)]
    rw [scanLoop_append_none _ _ _ hbody.1, hbody.2, hclose.1]
    rfl
  · rw [dumpStr, List.cons_append, srun_cons, sstep_quote_open, srun_append,
      hbody.2, hclose.2]

theorem natDigitsGo_mem (fuel : Nat) :
    ∀ (n : Nat) (c : Char), c ∈ natDigitsGo fuel n → 48 ≤ c.toNat ∧ c.toNat ≤ 57 := by
  induction fuel with
  | zero => intro n c hc; simp [natDigitsGo] at hc
  | succ fuel ih =>
    intro n c hc
    rw [natDigitsGo] at hc
    by_cases h : n = 0
    · rw [if_pos h] at hc; simp at hc
    · rw [if_neg h] at hc
      rcases List.mem_append.mp hc with h' | h'
      · exact ih (n / 10) c h'
      · simp only [List.mem_singleton] at h'
        subst h'
        rw [toNat_ofNat_valid _ (Or.inl (by omega))]
        omega

theorem dumpNat_mem (n : Nat) (c : Char) (hc : c ∈ dumpNat n) :
    48 ≤ c.toNat ∧ c.toNat ≤ 57 := by
  rw [dumpNat] at hc
  by_cases h : n = 0
  · rw [if_pos h] at hc
    simp only [List.mem_singleton] at hc
    subst hc
    constructor <;> decide
  · rw [if_neg h] at hc
    exact natDigitsGo_mem (n + 1) n c hc

theorem dumpInt_mem (n : Int) (c : Char) (hc : c ∈ dumpInt n) :
    (48 ≤ c.toNat ∧ c.toNat ≤ 57) ∨ c.toNat = 45 := by
  rw [dumpInt] at hc
  by_cases h : n < 0
  · rw [if_pos h] at hc
    rcases List.mem_cons.mp hc with rfl | h'
    · exact Or.inr (by decide)
    · exact Or.inl (dumpNat_mem _ c h')
  · rw [if_neg h] at hc
    exact Or.inl (dumpNat_mem _ c hc)

theorem dumpInt_plain (n : Int) :
    ∀ c ∈ dumpInt n, c ≠ '"' ∧ c ≠ '\\' ∧ c ≠ '{' ∧ c ≠ '}' := by
  intro c hc
  rcases dumpInt_mem n c hc with ⟨h1, h2⟩ | h1 <;>
    exact ⟨char_ne_of_toNat (by rw [(by rfl : ('"').toNat = 34)]; omega),
      char_ne_of_toNat (by rw [(by rfl : ('\\').toNat = 92)]; omega),
      char_ne_of_toNat (by rw [(by rfl : ('{').toNat = 123)]; omega),
      char_ne_of_toNat (by rw [(by rfl : ('}').toNat = 125)]; omega)⟩

theorem dumpNat_ne_nil (n : Nat) : dumpNat n ≠ [] := by
  rw [dumpNat]
  by_cases h : n = 0
  · rw [if_pos h]; simp
  · rw [if_neg h, natDigitsGo, if_neg h]
    simp

theorem dumpInt_ne_nil (n : Int) : dumpInt n ≠ [] := by
  rw [dumpInt]
  by_cases h : n < 0
  · rw [if_pos h]; simp
  · rw [if_neg h]; exact dumpNat_ne_nil _

theorem dumps_ne_nil (v : Json) : dumps v ≠ [] := by
  cases v with
  | null => simp [dumps]
  | bool b => cases b <;> simp [dumps]
  | num n => rw [dumps]; exact dumpInt_ne_nil n
  | str s => simp [dumps, dumpStr]
  | arr xs => cases xs <;> simp [dumps]
  | obj ms => cases ms <;> simp [dumps]

theorem dumps_length_pos (v : Json) : 1 ≤ (dumps v).length :=
  List.length_pos.mpr (dumps_ne_nil v)

theorem elemsRest_mem_length (xs : List Json) :
    ∀ x ∈ xs, (dumps x).length < (dumpsElemsRest xs).length := by
  induction xs with
  | nil => simp
  | cons y ys ih =>
    intro x hx
    rw [dumpsElemsRest]
    rcases List.mem_cons.mp hx with rfl | hx'
    · simp only [List.cons_append, List.length_cons, List.length_append]
      omega
    · have := ih x hx'
      simp only [List.cons_append, List.length_cons, List.length_append]
      omega

theorem membersRest_mem_length (ms : List (List Char × Json)) :
    ∀ m ∈ ms, (dumps m.2).length < (dumpsMembersRest ms).length := by
  induction ms with
  | nil => simp
  | cons p ps ih =>
    intro m hm
    rw [dumpsMembersRest]
    rcases List.mem_cons.mp hm with rfl | hm'
    · simp only [List.cons_append, List.length_cons, List.length_append]
      omega
    · have := ih m hm'
      simp only [List.cons_append, List.length_cons, List.length_append]
      omega

theorem elemsRest_neutral (d : Int) (xs : List Json)
    (hx : ∀ x ∈ xs, ScanNeutral (dumps x) ⟨d, false, false⟩) :
    ScanNeutral (dumpsElemsRest xs) ⟨d, false, false⟩ := by
  induction xs with
  | nil => exact scanNeutral_nil _
  | cons x xs ih =>
    rw [dumpsElemsRest]
    refine scanNeutral_append _ _ _ ?_ (ih (fun x' hx' => hx x' (by simp [hx'])))
    exact scanNeutral_plain_cons _ ',' _ rfl (by decide) (by decide) (by decide) (by decide)
      (hx x (by simp))

theorem membersRest_neutral (d : Int) (ms : List (List Char × Json))
    (hm : ∀ m ∈ ms, ScanNeutral (dumps m.2) ⟨d, false, false⟩) :
    ScanNeutral (dumpsMembersRest ms) ⟨d, false, false⟩ := by
  induction ms with
  | nil => exact scanNeutral_nil _
  | cons m ms ih =>
    rw [dumpsMembersRest]
    have hcolon : ScanNeutral (':' :: dumps m.2) ⟨d, false, false⟩ :=
      scanNeutral_plain_cons _ ':' _ rfl (by decide) (by decide) (by decide) (by decide)
        (hm m (by simp))
    have hkey : ScanNeutral (',' :: dumpStr m.1) ⟨d, false, false⟩ :=
      scanNeutral_plain_cons _ ',' _ rfl (by decide) (by decide) (by decide) (by decide)
        (scanNeutral_dumpStr d m.1)
    exact scanNeutral_append _ _ _
      (scanNeutral_append _ _ _ hkey hcolon)
      (ih (fun m' hm' => hm m' (by simp [hm'])))

theorem scanNeutral_obj_wrap (d : Int) (hd : 1 ≤ d) (inner : List Char)
    (hin : ScanNeutral inner ⟨d + 1, false, false⟩) :
    ScanNeutral (('{' :: inner) ++ ['}']) ⟨d, false, false⟩ := by
  have hd0 : ¬ (d + 1 - 1 = (0 : Int)) := by omega
  have hcl : scanLoop ['}'] ⟨d + 1, false, false⟩ = none ∧
      srun ⟨d + 1, false, false⟩ ['}'] = ⟨d, false, false⟩ := by
    constructor
    · rw [(by rfl : (['}'] : List Char) = '}' :: [])]
      rw [scanLoop_cons, sstep_close_brace]
      rw [if_neg (by simp; omega)]
      rfl
    · rw [(by rfl : (['}'] : List Char) = '}' :: [])]
      rw [srun_cons, sstep_close_brace, srun_nil]
      congr 1
      omega
  constructor
  · rw [List.cons_append, scanLoop_cons, sstep_open_brace]
    rw [if_neg (by simp)]
    rw [scanLoop_append_none _ _ _ hin.1, hin.2, hcl.1]
    rfl
  · rw [List.cons_append, srun_cons, sstep_open_brace, srun_append, hin.2, hcl.2]

theorem dumps_neutral_aux :
    ∀ N, ∀ v : Json, (dumps v).length ≤ N → ∀ d : Int, 1 ≤ d →
      ScanNeutral (dumps v) ⟨d, false, false⟩ := by
  intro N
  induction N with
  | zero =>
    intro v hv
    have := dumps_length_pos v
    omega
  | succ N ih =>
    intro v hv d hd
    cases v with
    | null =>
      exact scanNeutral_plain_list _ _ rfl (by decide)
    | bool b =>
      cases b <;> exact scanNeutral_plain_list _ _ rfl (by decide)
    | num n =>
      exact scanNeutral_plain_list _ _ rfl (by rw [(by rfl : dumps (Json.num n) = dumpInt n)] at hv ⊢; exact dumpInt_plain n)
    | str s => exact scanNeutral_dumpStr d s
    | arr xs =>
      cases xs with
      | nil => exact scanNeutral_plain_list _ _ rfl (by decide)
      | cons x xs =>
        have heq : dumps (Json.arr (x :: xs)) =
            ('[' :: (dumps x ++ dumpsElemsRest xs)) ++ [']'] := rfl
        rw [heq] at hv ⊢
        simp only [List.length_append, List.length_cons] at hv
        have hx : ScanNeutral (dumps x) ⟨d, false, false⟩ :=
          ih x (by omega) d hd
        have hxs : ScanNeutral (dumpsElemsRest xs) ⟨d, false, false⟩ :=
          elemsRest_neutral d xs (fun x' hx' =>
            ih x' (by have := elemsRest_mem_length xs x' hx'; omega) d hd)
        refine scanNeutral_append _ _ _ ?_ ?_
        · exact scanNeutral_plain_cons _ '[' _ rfl (by decide) (by decide) (by decide)
            (by decide) (scanNeutral_append _ _ _ hx hxs)
        · exact scanNeutral_plain_list _ _ rfl (by decide)
    | obj ms =>
      cases ms with
      | nil =>
        have hd0 : ¬ ((d : Int) + 1 - 1 = 0) := by omega
        constructor
        · rw [(by rfl : dumps (Json.obj []) = '{' :: ['}'])]
          rw [scanLoop_cons, sstep_open_brace, if_neg (by simp)]
          rw [(by rfl : (['}'] : List Char) = '}' :: [])]
          rw [scanLoop_cons, sstep_close_brace, if_neg (by simp; omega)]
          rfl
        · rw [(by rfl : dumps (Json.obj []) = '{' :: ['}'])]
          rw [srun_cons, sstep_open_brace]
          rw [(by rfl : (['}'] : List Char) = '}' :: [])]
          rw [srun_cons, sstep_close_brace, srun_nil]
          congr 1
          omega
      | cons m ms =>
        have heq : dumps (Json.obj (m :: ms)) =
            ('{' :: (dumpStr m.1 ++ ':' :: dumps m.2 ++ dumpsMembersRest ms)) ++ ['}'] := rfl
        rw [heq] at hv ⊢
        simp only [List.length_append, List.length_cons] at hv
        have hval : ScanNeutral (dumps m.2) ⟨d + 1, false, false⟩ :=
          ih m.2 (by omega) (d + 1) (by omega)
        have hmem : ScanNeutral (dumpsMembersRest ms) ⟨d + 1, false, false⟩ :=
          membersRest_neutral (d + 1) ms (fun m' hm' =>
            ih m'.2 (by have := membersRest_mem_length ms m' hm'; omega) (d + 1) (by omega))
        refine scanNeutral_obj_wrap d hd _ ?_
        refine scanNeutral_append _ _ _ (scanNeutral_append _ _ _ ?_ ?_) hmem
        · exact scanNeutral_dumpStr (d + 1) m.1
        · exact scanNeutral_plain_cons _ ':' _ rfl (by decide) (by decide) (by decide)
            (by decide) hval

theorem dumps_neutral (v : Json) (d : Int) (hd : 1 ≤ d) :
    ScanNeutral (dumps v) ⟨d, false, false⟩ :=
  dumps_neutral_aux (dumps v).length v (Nat.le_refl _) d hd

theorem scan_dumps_obj (ms : List (List Char × Json)) (post : List Char) :
    scanLoop (dumps (Json.obj ms) ++ post) scanInit =
      some ((dumps (Json.obj ms)).length - 1) := by
  cases ms with
  | nil =>
    rw [(by rfl : dumps (Json.obj []) = ['{', '}'])]
    rw [(by simp : (['{', '}'] : List Char) ++ post = '{' :: '}' :: post)]
    rw [scanLoop_cons]
    rw [(by rw [scanInit, sstep_open_brace] :
      sstep scanInit '{' = (⟨0 + 1, false, false⟩ : ScanSt))]
    rw [if_neg (by simp)]
    rw [scanLoop_cons, sstep_close_brace]
    rw [if_pos (by simp)]
    rfl
  | cons m ms0 =>
    have hinner : ScanNeutral
        (dumpStr m.1 ++ ':' :: dumps m.2 ++ dumpsMembersRest ms0) ⟨1, false, false⟩ := by
      refine scanNeutral_append _ _ _ (scanNeutral_append _ _ _ ?_ ?_) ?_
      · exact scanNeutral_dumpStr 1 m.1
      · exact scanNeutral_plain_cons _ ':' _ rfl (by decide) (by decide) (by decide)
          (by decide) (dumps_neutral m.2 1 (by omega))
      · exact membersRest_neutral 1 ms0 (fun m' _ => dumps_neutral m'.2 1 (by omega))
    have heq : dumps (Json.obj (m :: ms0)) =
        ('{' :: (dumpStr m.1 ++ ':' :: dumps m.2 ++ dumpsMembersRest ms0)) ++ ['}'] := rfl
    rw [heq]
    rw [(by simp : (('{' :: (dumpStr m.1 ++ ':' :: dumps m.2 ++ dumpsMembersRest ms0)) ++ ['}'])
        ++ post =
      '{' :: ((dumpStr m.1 ++ ':' :: dumps m.2 ++ dumpsMembersRest ms0) ++ '}' :: post))]
    rw [scanLoop_cons]
    rw [(by rw [scanInit, sstep_open_brace] :
      sstep scanInit '{' = (⟨0 + 1, false, false⟩ : ScanSt))]
    rw [if_neg (by simp)]
    have h01 : ((⟨0 + 1, false, false⟩ : ScanSt)) = (⟨1, false, false⟩ : ScanSt) := by norm_num
    rw [h01]
    rw [scanLoop_append_none _ _ _ hinner.1, hinner.2]
    rw [scanLoop_cons, sstep_close_brace]
    rw [if_pos (by simp)]
    simp only [Option.map_some', List.length_append, List.length_cons]
    congr 1
    simp

theorem take_dumps_obj (ms : List (List Char × Json)) (post : List Char) :
    (dumps (Json.obj ms) ++ post).take ((dumps (Json.obj ms)).length - 1 + 1) =
      dumps (Json.obj ms) := by
  have h1 := dumps_length_pos (Json.obj ms)
  rw [(by omega : (dumps (Json.obj ms)).length - 1 + 1 = (dumps (Json.obj ms)).length)]
  exact List.take_left _ _

/-! ## Decoder round trip (towards claim C1): tokens -/

theorem dropWs_cons_of_not_ws (c : Char) (r : List Char) (h : isWsChar c = false) :
    dropWs (c :: r) = c :: r := by
  rw [dropWs, h]
  rfl

theorem isWsChar_false_of_toNat (c : Char)
    (h : c.toNat ≠ 32 ∧ c.toNat ≠ 9 ∧ c.toNat ≠ 10 ∧ c.toNat ≠ 13) :
    isWsChar c = false := by
  rcases h with ⟨h1, h2, h3, h4⟩
  have e1 : c ≠ ' ' := char_ne_of_toNat (by rw [(by rfl : (' ').toNat = 32)]; omega)
  have e2 : c ≠ '\t' := char_ne_of_toNat (by rw [(by rfl : ('\t').toNat = 9)]; omega)
  have e3 : c ≠ '\n' := char_ne_of_toNat (by rw [(by rfl : ('\n').toNat = 10)]; omega)
  have e4 : c ≠ '\r' := char_ne_of_toNat (by rw [(by rfl : ('\r').toNat = 13)]; omega)
  simp [isWsChar, e1, e2, e3, e4]

theorem dumps_head (v : Json) :
    ∃ c cs, dumps v = c :: cs ∧ isWsChar c = false ∧ c ≠ ']' := by
  cases v with
  | null => exact ⟨'n', _, rfl, by decide, by decide⟩
  | bool b =>
    cases b
    · exact ⟨'f', _, rfl, by decide, by decide⟩
    · exact ⟨'t', _, rfl, by decide, by decide⟩
  | str s => exact ⟨'"', _, rfl, by decide, by decide⟩
  | arr xs => cases xs with
    | nil => exact ⟨'[', _, rfl, by decide, by decide⟩
    | cons x xs => exact ⟨'[', _, rfl, by decide, by decide⟩
  | obj ms => cases ms with
    | nil => exact ⟨'{', _, rfl, by decide, by decide⟩
    | cons m ms => exact ⟨'{', _, rfl, by decide, by decide⟩
  | num n =>
    rcases hd : dumpInt n with - | ⟨c, cs⟩
    · exact absurd hd (dumpInt_ne_nil n)
    · refine ⟨c, cs, hd, ?_, ?_⟩
      · have hc : c ∈ dumpInt n := by rw [hd]; simp
        rcases dumpInt_mem n c hc with ⟨h1, h2⟩ | h1 <;>
          exact isWsChar_false_of_toNat c (by omega)
      · have hc : c ∈ dumpInt n := by rw [hd]; simp
        rcases dumpInt_mem n c hc with ⟨h1, h2⟩ | h1 <;>
          exact char_ne_of_toNat (by rw [(by rfl : (']').toNat = 93)]; omega)

theorem dropWs_dumps (v : Json) (r : List Char) :
    dropWs (dumps v ++ r) = dumps v ++ r := by
  rcases dumps_head v with ⟨c, cs, heq, hws, -⟩
  rw [heq, List.cons_append, dropWs_cons_of_not_ws c _ hws]

theorem dropWs_dumps_nil (v : Json) : dropWs (dumps v) = dumps v := by
  have := dropWs_dumps v []
  simpa using this

theorem restSafe_cons (c : Char) (r : List Char) (h1 : isDigitCh c = false)
    (h2 : c ≠ '.') (h3 : c ≠ 'e') (h4 : c ≠ 'E') : restSafe (c :: r) := by
  rw [restSafe]
  exact ⟨h1, h2, h3, h4⟩

theorem restSafe_elems (xs : List Json) (rest : List Char) :
    restSafe (dumpsElemsRest xs ++ ']' :: rest) := by
  cases xs with
  | nil =>
    rw [dumpsElemsRest, List.nil_append]
    exact restSafe_cons ']' rest (by decide) (by decide) (by decide) (by decide)
  | cons x xs =>
    rw [dumpsElemsRest]
    simp only [List.cons_append, List.append_assoc]
    exact restSafe_cons ',' _ (by decide) (by decide) (by decide) (by decide)

theorem restSafe_members (ms : List (List Char × Json)) (rest : List Char) :
    restSafe (dumpsMembersRest ms ++ '}' :: rest) := by
  cases ms with
  | nil =>
    rw [dumpsMembersRest, List.nil_append]
    exact restSafe_cons '}' rest (by decide) (by decide) (by decide) (by decide)
  | cons m ms =>
    rw [dumpsMembersRest]
    simp only [List.cons_append, List.append_assoc]
    exact restSafe_cons ',' _ (by decide) (by decide) (by decide) (by decide)

theorem natDigitsGo_zero (fuel : Nat) : natDigitsGo fuel 0 = [] := by
  cases fuel <;> simp [natDigitsGo]

theorem isDigitCh_true_of (c : Char) (h1 : 48 ≤ c.toNat) (h2 : c.toNat ≤ 57) :
    isDigitCh c = true := by
  simp [isDigitCh]
  omega

theorem natDigitsGo_head : ∀ (fuel n : Nat), 1 ≤ n → n ≤ fuel →
    ∃ d ds, natDigitsGo fuel n = d :: ds ∧ 49 ≤ d.toNat ∧ d.toNat ≤ 57 := by
  intro fuel
  induction fuel with
  | zero => intro n h1 h2; omega
  | succ fuel ih =>
    intro n h1 h2
    rw [natDigitsGo, if_neg (by omega)]
    by_cases h10 : n < 10
    · have : n / 10 = 0 := by omega
      rw [this, natDigitsGo_zero, List.nil_append]
      refine ⟨Char.ofNat (48 + n % 10), [], rfl, ?_, ?_⟩ <;>
        rw [toNat_ofNat_valid _ (Or.inl (by omega))] <;> omega
    · rcases ih (n / 10) (by omega) (by omega) with ⟨d, ds, heq, hd1, hd2⟩
      rw [heq, List.cons_append]
      exact ⟨d, _, rfl, hd1, hd2⟩

theorem digitsToNat_append_one (ds : List Char) (c : Char) :
    digitsToNat (ds ++ [c]) = digitsToNat ds * 10 + (c.toNat - 48) := by
  rw [digitsToNat, digitsToNat, List.foldl_append]
  rfl

theorem digitsToNat_natDigitsGo : ∀ (fuel n : Nat), n ≤ fuel →
    digitsToNat (natDigitsGo fuel n) = n := by
  intro fuel
  induction fuel with
  | zero =>
    intro n h
    have : n = 0 := by omega
    subst this
    rfl
  | succ fuel ih =>
    intro n h
    rw [natDigitsGo]
    by_cases h0 : n = 0
    · rw [if_pos h0, h0]; rfl
    · rw [if_neg h0, digitsToNat_append_one, ih (n / 10) (by omega),
        toNat_ofNat_valid _ (Or.inl (by omega))]
      omega

theorem takeDigits_all (ds : List Char) (r : List Char)
    (hds : ∀ c ∈ ds, isDigitCh c = true) (hr : restSafe r) :
    takeDigits (ds ++ r) = (ds, r) := by
  induction ds with
  | nil =>
    cases r with
    | nil => rfl
    | cons c r' =>
      rw [List.nil_append, takeDigits]
      rw [restSafe] at hr
      rw [hr.1]
      rfl
  | cons d ds ih =>
    rw [List.cons_append, takeDigits, hds d (by simp)]
    simp only [if_true]
    rw [ih (fun c hc => hds c (by simp [hc]))]

theorem natDigitsGo_digitCh (fuel n : Nat) :
    ∀ c ∈ natDigitsGo fuel n, isDigitCh c = true := by
  intro c hc
  rcases natDigitsGo_mem fuel n c hc with ⟨h1, h2⟩
  exact isDigitCh_true_of c h1 h2

theorem parseUIntTok_dumpNat (n : Nat) (r : List Char) (hr : restSafe r) :
    parseUIntTok (dumpNat n ++ r) = some (n, r) := by
  by_cases h : n = 0
  · subst h
    rw [(by rfl : dumpNat 0 = ['0']), List.cons_append, List.nil_append, parseUIntTok]
    rw [if_pos rfl]
  · rw [dumpNat, if_neg h]
    rcases natDigitsGo_head (n + 1) n (by omega) (by omega) with ⟨d, ds, heq, hd1, hd2⟩
    have hddig : isDigitCh d = true := isDigitCh_true_of d (by omega) hd2
    have hdne : ¬ d = '0' := char_ne_of_toNat (by rw [(by rfl : ('0').toNat = 48)]; omega)
    have hds : ∀ c ∈ ds, isDigitCh c = true := by
      intro c hc
      exact natDigitsGo_digitCh (n + 1) n c (by rw [heq]; simp [hc])
    rw [heq, List.cons_append, parseUIntTok, if_neg hdne, hddig]
    simp only [if_true]
    rw [takeDigits_all ds r hds hr]
    have : digitsToNat (d :: ds) = n := by
      rw [← heq]
      exact digitsToNat_natDigitsGo (n + 1) n (by omega)
    rw [this]

theorem dumpNat_head_not_minus (n : Nat) :
    ∃ c cs, dumpNat n = c :: cs ∧ ¬ c = '-' := by
  by_cases h : n = 0
  · subst h
    exact ⟨'0', [], rfl, by decide⟩
  · rw [dumpNat, if_neg h]
    rcases natDigitsGo_head (n + 1) n (by omega) (by omega) with ⟨d, ds, heq, hd1, hd2⟩
    exact ⟨d, ds, heq, char_ne_of_toNat (by rw [(by rfl : ('-').toNat = 45)]; omega)⟩

theorem parseIntTok_dumpInt (n : Int) (r : List Char) (hr : restSafe r) :
    parseIntTok (dumpInt n ++ r) = some (n, r) := by
  by_cases h : n < 0
  · rw [dumpInt, if_pos h, List.cons_append, parseIntTok, if_pos rfl,
      parseUIntTok_dumpNat n.natAbs r hr]
    simp only [Option.map_some']
    rw [show (-((n.natAbs : Nat) : Int)) = n by omega]
  · rw [dumpInt, if_neg h]
    rcases dumpNat_head_not_minus n.natAbs with ⟨c, cs, heq, hne⟩
    have : parseIntTok (dumpNat n.natAbs ++ r) =
        (parseUIntTok (dumpNat n.natAbs ++ r)).map (fun p => ((p.1 : Int), p.2)) := by
      rw [heq, List.cons_append, parseIntTok, if_neg hne]
    rw [this, parseUIntTok_dumpNat n.natAbs r hr]
    simp only [Option.map_some']
    rw [show (((n.natAbs : Nat) : Int)) = n by omega]

/-! ## Decoder round trip: string literals -/

theorem hexVal_hexDigitCh (x : Nat) (hx : x < 16) :
    hexVal (hexDigitCh x) = some x := by
  rw [hexVal, hexDigitCh_toNat x hx]
  by_cases h : x < 10
  · rw [if_pos h]
    rw [if_pos (by simp; omega)]
    congr 1
    omega
  · rw [if_neg h]
    rw [if_neg (by simp; omega), if_pos (by simp; omega)]
    congr 1
    omega

theorem parseStrBody_quote (fuel : Nat) (rest : List Char) :
    parseStrBody (fuel + 1) ('"' :: rest) = some ([], rest) := rfl

theorem parseStrBody_escQuote (fuel : Nat) (rest : List Char) :
    parseStrBody (fuel + 1) ('\\' :: '"' :: rest) =
      (parseStrBody fuel rest).map (fun p => ('"' :: p.1, p.2)) := rfl

theorem parseStrBody_escBslash (fuel : Nat) (rest : List Char) :
    parseStrBody (fuel + 1) ('\\' :: '\\' :: rest) =
      (parseStrBody fuel rest).map (fun p => ('\\' :: p.1, p.2)) := rfl

theorem parseStrBody_u00 (fuel : Nat) (h1ch h2ch : Char) (rest : List Char) :
    parseStrBody (fuel + 1) ('\\' :: 'u' :: '0' :: '0' :: h1ch :: h2ch :: rest) =
      (match hex4 '0' '0' h1ch h2ch with
       | none => none
       | some n =>
         if n < 0xD800 || 0xDFFF < n then
           (parseStrBody fuel rest).map (fun p => (Char.ofNat n :: p.1, p.2))
         else if n < 0xDC00 then
           match rest with
           | e2 :: u2 :: a2 :: b2 :: c3 :: d2 :: rest4 =>
             if e2 = '\\' && u2 = 'u' then
               match hex4 a2 b2 c3 d2 with
               | some m =>
                 if 0xDC00 ≤ m && m ≤ 0xDFFF then
                   (parseStrBody fuel rest4).map
                     (fun p => (Char.ofNat (0x10000 + (n - 0xD800) * 0x400 + (m - 0xDC00)) :: p.1, p.2))
                 else none
               | none => none
             else none
           | _ => none
         else none) := rfl

theorem parseStrBody_cons_eq (fuel : Nat) (c : Char) (rest : List Char) :
    parseStrBody (fuel + 1) (c :: rest) =
      (if c = '"' then some ([], rest)
       else if c = '\\' then
         match rest with
         | [] => none
         | e :: rest2 =>
           if e = 'u' then
             match rest2 with
             | a :: b :: c2 :: d :: rest3 =>
               match hex4 a b c2 d with
               | none => none
               | some n =>
                 if n < 0xD800 || 0xDFFF < n then
                   (parseStrBody fuel rest3).map (fun p => (Char.ofNat n :: p.1, p.2))
                 else if n < 0xDC00 then
                   match rest3 with
                   | e2 :: u2 :: a2 :: b2 :: c3 :: d2 :: rest4 =>
                     if e2 = '\\' && u2 = 'u' then
                       match hex4 a2 b2 c3 d2 with
                       | some m =>
                         if 0xDC00 ≤ m && m ≤ 0xDFFF then
                           (parseStrBody fuel rest4).map
                             (fun p => (Char.ofNat (0x10000 + (n - 0xD800) * 0x400 + (m - 0xDC00)) :: p.1, p.2))
                         else none
                       | none => none
                     else none
                   | _ => none
                 else none
             | _ => none
           else
             match escDecode e with
             | some ch => (parseStrBody fuel rest2).map (fun p => (ch :: p.1, p.2))
             | none => none
       else if c.toNat < 32 then none
       else (parseStrBody fuel rest).map (fun p => (c :: p.1, p.2))) := rfl

theorem parseStrBody_plain (fuel : Nat) (c : Char) (rest : List Char) (h1 : ¬ c = '"')
    (h2 : ¬ c = '\\') (h3 : ¬ c.toNat < 32) :
    parseStrBody (fuel + 1) (c :: rest) =
      (parseStrBody fuel rest).map (fun p => (c :: p.1, p.2)) := by
  rw [parseStrBody_cons_eq]
  rw [if_neg h1, if_neg h2, if_neg h3]

theorem parseStrBody_dumps (s : List Char) :
    ∀ (fuel : Nat) (r : List Char), (s.flatMap escCharJ).length + 1 ≤ fuel →
      parseStrBody fuel (s.flatMap escCharJ ++ '"' :: r) = some (s, r) := by
  induction s with
  | nil =>
    intro fuel r hf
    cases fuel with
    | zero => omega
    | succ fuel =>
      rw [List.flatMap_nil, List.nil_append, parseStrBody_quote]
  | cons c s ih =>
    intro fuel r hf
    rw [List.flatMap_cons, List.length_append] at hf
    rw [List.flatMap_cons, List.append_assoc]
    by_cases h1 : c = '"'
    · subst h1
      rw [(by rfl : escCharJ '"' = ['\\', '"'])] at hf ⊢
      cases fuel with
      | zero => simp at hf
      | succ fuel =>
        simp only [List.cons_append, List.nil_append]
        rw [parseStrBody_escQuote]
        rw [ih fuel r (by simp at hf ⊢; omega)]
        rfl
    by_cases h2 : c = '\\'
    · subst h2
      rw [(by rfl : escCharJ '\\' = ['\\', '\\'])] at hf ⊢
      cases fuel with
      | zero => simp at hf
      | succ fuel =>
        simp only [List.cons_append, List.nil_append]
        rw [parseStrBody_escBslash]
        rw [ih fuel r (by simp at hf ⊢; omega)]
        rfl
    by_cases h3 : c.toNat < 32
    · have e1 : escCharJ c =
          ['\\', 'u', '0', '0', hexDigitCh (c.toNat / 16), hexDigitCh (c.toNat % 16)] := by
        rw [escCharJ, if_neg h1, if_neg h2, if_pos h3]
      rw [e1] at hf ⊢
      cases fuel with
      | zero => simp at hf
      | succ fuel =>
        simp only [List.cons_append, List.nil_append]
        rw [parseStrBody_u00]
        have hhex : hex4 '0' '0' (hexDigitCh (c.toNat / 16)) (hexDigitCh (c.toNat % 16)) =
            some c.toNat := by
          rw [hex4]
          rw [(by rfl : hexVal '0' = some 0)]
          rw [hexVal_hexDigitCh (c.toNat / 16) (by omega)]
          rw [hexVal_hexDigitCh (c.toNat % 16) (by omega)]
          simp only [Option.bind_eq_bind, Option.some_bind]
          congr 1
          omega
        rw [hhex]
        simp only
        rw [if_pos (by simp; omega)]
        rw [ih fuel r (by simp at hf ⊢; omega)]
        simp only [Option.map_some']
        rw [Char.ofNat_toNat]
    · have e1 : escCharJ c = [c] := by
        rw [escCharJ, if_neg h1, if_neg h2, if_neg h3]
      rw [e1] at hf ⊢
      cases fuel with
      | zero => simp at hf
      | succ fuel =>
        simp only [List.cons_append, List.nil_append]
        rw [parseStrBody_plain fuel c _ h1 h2 h3]
        rw [ih fuel r (by simp at hf ⊢; omega)]
        rfl

/-! ## Decoder round trip: value-parser unfold lemmas -/

theorem parseValue_cons_eq (fuel : Nat) (c : Char) (rest : List Char) :
    parseValue (fuel + 1) (c :: rest) =
      (if c = '"' then
        match parseStrBody fuel rest with
        | some (cs, r) => Except.ok (Json.str cs, r)
        | none => Except.error (c :: rest)
      else if c = '{' then parseObjBody fuel (dropWs rest)
      else if c = '[' then parseArrBody fuel (dropWs rest)
      else if c = 'n' then
        match rest with
        | 'u' :: 'l' :: 'l' :: r => Except.ok (Json.null, r)
        | _ => Except.error (c :: rest)
      else if c = 't' then
        match rest with
        | 'r' :: 'u' :: 'e' :: r => Except.ok (Json.bool true, r)
        | _ => Except.error (c :: rest)
      else if c = 'f' then
        match rest with
        | 'a' :: 'l' :: 's' :: 'e' :: r => Except.ok (Json.bool false, r)
        | _ => Except.error (c :: rest)
      else
        match parseIntTok (c :: rest) with
        | some (n, r) =>
          if r.head? = some '.' ∨ r.head? = some 'e' ∨ r.head? = some 'E' then
            Except.error (c :: rest)
          else Except.ok (Json.num n, r)
        | none => Except.error (c :: rest)) := rfl

theorem parseValue_null_eq (fuel : Nat) (r : List Char) :
    parseValue (fuel + 1) ('n' :: 'u' :: 'l' :: 'l' :: r) = Except.ok (Json.null, r) := rfl

theorem parseValue_true_eq (fuel : Nat) (r : List Char) :
    parseValue (fuel + 1) ('t' :: 'r' :: 'u' :: 'e' :: r) =
      Except.ok (Json.bool true, r) := rfl

theorem parseValue_false_eq (fuel : Nat) (r : List Char) :
    parseValue (fuel + 1) ('f' :: 'a' :: 'l' :: 's' :: 'e' :: r) =
      Except.ok (Json.bool false, r) := rfl

theorem parseValue_str_eq (fuel : Nat) (rest : List Char) :
    parseValue (fuel + 1) ('"' :: rest) =
      (match parseStrBody fuel rest with
       | some (cs, r) => Except.ok (Json.str cs, r)
       | none => Except.error ('"' :: rest)) := rfl

theorem parseValue_obj_eq (fuel : Nat) (rest : List Char) :
    parseValue (fuel + 1) ('{' :: rest) = parseObjBody fuel (dropWs rest) := rfl

theorem parseValue_arr_eq (fuel : Nat) (rest : List Char) :
    parseValue (fuel + 1) ('[' :: rest) = parseArrBody fuel (dropWs rest) := rfl

theorem parseValue_num_eq (fuel : Nat) (c : Char) (rest : List Char)
    (h1 : ¬ c = '"') (h2 : ¬ c = '{') (h3 : ¬ c = '[') (h4 : ¬ c = 'n')
    (h5 : ¬ c = 't') (h6 : ¬ c = 'f') :
    parseValue (fuel + 1) (c :: rest) =
      (match parseIntTok (c :: rest) with
       | some (n, r) =>
         if r.head? = some '.' ∨ r.head? = some 'e' ∨ r.head? = some 'E' then
           Except.error (c :: rest)
         else Except.ok (Json.num n, r)
       | none => Except.error (c :: rest)) := by
  rw [parseValue_cons_eq]
  rw [if_neg h1, if_neg h2, if_neg h3, if_neg h4, if_neg h5, if_neg h6]

theorem parseObjBody_rbrace_eq (fuel : Nat) (r : List Char) :
    parseObjBody (fuel + 1) ('}' :: r) = Except.ok (Json.obj [], r) := rfl

theorem parseObjBody_quote_eq (fuel : Nat) (rest : List Char) :
    parseObjBody (fuel + 1) ('"' :: rest) =
      (match parseStrBody fuel rest with
       | none => Except.error ('"' :: rest)
       | some (k, r1) =>
         match dropWs r1 with
         | ':' :: r2 =>
           match parseValue fuel (dropWs r2) with
           | Except.error e => Except.error e
           | Except.ok (v, r3) => parseObjRest fuel [(k, v)] (dropWs r3)
         | r2 => Except.error r2) := rfl

theorem parseObjRest_cons_eq (fuel : Nat) (acc : List (List Char × Json)) (c : Char)
    (r : List Char) :
    parseObjRest (fuel + 1) acc (c :: r) =
      (if c = '}' then Except.ok (Json.obj acc, r)
       else if c = ',' then
         match dropWs r with
         | '"' :: rest =>
           match parseStrBody fuel rest with
           | none => Except.error ('"' :: rest)
           | some (k, r1) =>
             match dropWs r1 with
             | ':' :: r2 =>
               match parseValue fuel (dropWs r2) with
               | Except.error e => Except.error e
               | Except.ok (v, r3) => parseObjRest fuel (objInsert acc k v) (dropWs r3)
             | r2 => Except.error r2
         | r2 => Except.error r2
       else Except.error (c :: r)) := rfl

theorem parseArrBody_rbrack_eq (fuel : Nat) (r : List Char) :
    parseArrBody (fuel + 1) (']' :: r) = Except.ok (Json.arr [], r) := rfl

theorem parseArrBody_cons_eq (fuel : Nat) (c : Char) (rest : List Char) :
    parseArrBody (fuel + 1) (c :: rest) =
      (if c = ']' then Except.ok (Json.arr [], rest)
       else
         match parseValue fuel (c :: rest) with
         | Except.error e => Except.error e
         | Except.ok (v, r) => parseArrRest fuel [v] (dropWs r)) := rfl

theorem parseArrRest_cons_eq (fuel : Nat) (acc : List Json) (c : Char) (r : List Char) :
    parseArrRest (fuel + 1) acc (c :: r) =
      (if c = ']' then Except.ok (Json.arr acc, r)
       else if c = ',' then
         match parseValue fuel (dropWs r) with
         | Except.error e => Except.error e
         | Except.ok (v, r2) => parseArrRest fuel (acc ++ [v]) (dropWs r2)
       else Except.error (c :: r)) := rfl

/-! ## Decoder round trip: separators, duplicate-free keys, `objInsert` -/

theorem dropWs_membersRest (ms : List (List Char × Json)) (r : List Char) :
    dropWs (dumpsMembersRest ms ++ '}' :: r) = dumpsMembersRest ms ++ '}' :: r := by
  cases ms with
  | nil =>
    rw [dumpsMembersRest, List.nil_append]
    exact dropWs_cons_of_not_ws '}' r (by decide)
  | cons m ms =>
    rw [dumpsMembersRest]
    simp only [List.cons_append, List.append_assoc]
    exact dropWs_cons_of_not_ws ',' _ (by decide)

theorem dropWs_elemsRest (xs : List Json) (r : List Char) :
    dropWs (dumpsElemsRest xs ++ ']' :: r) = dumpsElemsRest xs ++ ']' :: r := by
  cases xs with
  | nil =>
    rw [dumpsElemsRest, List.nil_append]
    exact dropWs_cons_of_not_ws ']' r (by decide)
  | cons x xs =>
    rw [dumpsElemsRest]
    simp only [List.cons_append, List.append_assoc]
    exact dropWs_cons_of_not_ws ',' _ (by decide)

theorem containsL_true_iff (ks : List (List Char)) (k : List Char) :
    ks.contains k = true ↔ k ∈ ks := by
  simp

theorem nodup_split_head (xs ys : List (List Char)) (y : List Char)
    (h : keyNodupB (xs ++ y :: ys) = true) : ∀ x ∈ xs, ¬ x = y := by
  induction xs with
  | nil =>
    intro x hx
    simp at hx
  | cons a as ih =>
    rw [List.cons_append, keyNodupB, Bool.and_eq_true] at h
    intro x hx
    rcases List.mem_cons.mp hx with rfl | hx2
    · intro he
      subst he
      have hc : (as ++ x :: ys).contains x = true := by
        rw [containsL_true_iff]
        simp
      rw [hc] at h
      exact absurd h.1 (by decide)
    · exact ih h.2 x hx2

theorem objInsert_append (acc : List (List Char × Json)) (k : List Char) (v : Json)
    (h : ∀ p ∈ acc, ¬ p.1 = k) : objInsert acc k v = acc ++ [(k, v)] := by
  rw [objInsert, if_neg]
  rw [List.any_eq_true]
  rintro ⟨p, hp, he⟩
  exact h p hp (of_decide_eq_true he)

/-! ## Decoder round trip: the main induction on serialized length -/

theorem dropWs_dumpStr_append (s x : List Char) :
    dropWs (dumpStr s ++ x) = dumpStr s ++ x := by
  simp only [dumpStr, List.cons_append, List.nil_append, List.append_assoc]
  exact dropWs_cons_of_not_ws '"' _ (by decide)

theorem rt_all : ∀ N : Nat,
    (∀ (v : Json) (r : List Char) (fuel : Nat), WFb v = true →
      (dumps v).length ≤ N → (dumps v).length ≤ fuel → restSafe r →
      parseValue fuel (dumps v ++ r) = Except.ok (v, r)) ∧
    (∀ (acc ms : List (List Char × Json)) (r : List Char) (fuel : Nat),
      WFbM ms = true → keyNodupB ((acc ++ ms).map Prod.fst) = true →
      (dumpsMembersRest ms).length ≤ N → (dumpsMembersRest ms).length + 1 ≤ fuel →
      parseObjRest fuel acc (dumpsMembersRest ms ++ '}' :: r) =
        Except.ok (Json.obj (acc ++ ms), r)) ∧
    (∀ (acc xs : List Json) (r : List Char) (fuel : Nat), WFbL xs = true →
      (dumpsElemsRest xs).length ≤ N → (dumpsElemsRest xs).length + 1 ≤ fuel →
      parseArrRest fuel acc (dumpsElemsRest xs ++ ']' :: r) =
        Except.ok (Json.arr (acc ++ xs), r)) := by
  intro N
  induction N with
  | zero =>
    refine ⟨?_, ?_, ?_⟩
    · intro v r fuel _ hN _ _
      have := dumps_length_pos v
      omega
    · intro acc ms r fuel _ _ hN hfuel
      cases ms with
      | nil =>
        rw [(by rfl : dumpsMembersRest ([] : List (List Char × Json)) = [])] at hfuel ⊢
        rw [List.nil_append, List.append_nil]
        simp only [List.length_nil] at hfuel
        obtain ⟨f, rfl⟩ : ∃ f, fuel = f + 1 := ⟨fuel - 1, by omega⟩
        rw [parseObjRest_cons_eq, if_pos rfl]
      | cons p ms0 =>
        exfalso
        have heq : dumpsMembersRest (p :: ms0) =
            (',' :: dumpStr p.1) ++ (':' :: dumps p.2) ++ dumpsMembersRest ms0 := rfl
        rw [heq] at hN
        simp only [List.length_append, List.length_cons] at hN
        omega
    · intro acc xs r fuel _ hN hfuel
      cases xs with
      | nil =>
        rw [(by rfl : dumpsElemsRest ([] : List Json) = [])] at hfuel ⊢
        rw [List.nil_append, List.append_nil]
        simp only [List.length_nil] at hfuel
        obtain ⟨f, rfl⟩ : ∃ f, fuel = f + 1 := ⟨fuel - 1, by omega⟩
        rw [parseArrRest_cons_eq, if_pos rfl]
      | cons x xs0 =>
        exfalso
        have heq : dumpsElemsRest (x :: xs0) = (',' :: dumps x) ++ dumpsElemsRest xs0 := rfl
        rw [heq] at hN
        simp only [List.length_append, List.length_cons] at hN
        omega
  | succ N ih =>
    obtain ⟨ihv, ihor, ihar⟩ := ih
    refine ⟨?_, ?_, ?_⟩
    · intro v r fuel hwf hN hfuel hr
      cases v with
      | null =>
        rw [(by rfl : dumps Json.null = ['n', 'u', 'l', 'l'])] at hfuel ⊢
        have h4 : 4 ≤ fuel := by simpa using hfuel
        obtain ⟨f, rfl⟩ : ∃ f, fuel = f + 1 := ⟨fuel - 1, by omega⟩
        rw [(by simp : (['n', 'u', 'l', 'l'] : List Char) ++ r =
          'n' :: 'u' :: 'l' :: 'l' :: r)]
        exact parseValue_null_eq f r
      | bool b =>
        cases b with
        | true =>
          rw [(by rfl : dumps (Json.bool true) = ['t', 'r', 'u', 'e'])] at hfuel ⊢
          have h4 : 4 ≤ fuel := by simpa using hfuel
          obtain ⟨f, rfl⟩ : ∃ f, fuel = f + 1 := ⟨fuel - 1, by omega⟩
          rw [(by simp : (['t', 'r', 'u', 'e'] : List Char) ++ r =
            't' :: 'r' :: 'u' :: 'e' :: r)]
          exact parseValue_true_eq f r
        | false =>
          rw [(by rfl : dumps (Json.bool false) = ['f', 'a', 'l', 's', 'e'])] at hfuel ⊢
          have h5 : 5 ≤ fuel := by simpa using hfuel
          obtain ⟨f, rfl⟩ : ∃ f, fuel = f + 1 := ⟨fuel - 1, by omega⟩
          rw [(by simp : (['f', 'a', 'l', 's', 'e'] : List Char) ++ r =
            'f' :: 'a' :: 'l' :: 's' :: 'e' :: r)]
          exact parseValue_false_eq f r
      | num n =>
        rw [(by rfl : dumps (Json.num n) = dumpInt n)] at hfuel ⊢
        rcases hd : dumpInt n with - | ⟨c, cs⟩
        · exact absurd hd (dumpInt_ne_nil n)
        · have hc : c ∈ dumpInt n := by rw [hd]; simp
          have hcn := dumpInt_mem n c hc
          have h1 : ¬ c = '"' := char_ne_of_toNat
            (by rw [(by rfl : ('"').toNat = 34)]; rcases hcn with ⟨a, b⟩ | a <;> omega)
          have h2 : ¬ c = '{' := char_ne_of_toNat
            (by rw [(by rfl : ('{').toNat = 123)]; rcases hcn with ⟨a, b⟩ | a <;> omega)
          have h3 : ¬ c = '[' := char_ne_of_toNat
            (by rw [(by rfl : ('[').toNat = 91)]; rcases hcn with ⟨a, b⟩ | a <;> omega)
          have h4 : ¬ c = 'n' := char_ne_of_toNat
            (by rw [(by rfl : ('n').toNat = 110)]; rcases hcn with ⟨a, b⟩ | a <;> omega)
          have h5 : ¬ c = 't' := char_ne_of_toNat
            (by rw [(by rfl : ('t').toNat = 116)]; rcases hcn with ⟨a, b⟩ | a <;> omega)
          have h6 : ¬ c = 'f' := char_ne_of_toNat
            (by rw [(by rfl : ('f').toNat = 102)]; rcases hcn with ⟨a, b⟩ | a <;> omega)
          have hlen1 : 1 ≤ fuel := by
            rw [hd] at hfuel
            simp only [List.length_cons] at hfuel
            omega
          obtain ⟨f, rfl⟩ : ∃ f, fuel = f + 1 := ⟨fuel - 1, by omega⟩
          rw [List.cons_append, parseValue_num_eq f c (cs ++ r) h1 h2 h3 h4 h5 h6]
          have hterm := parseIntTok_dumpInt n r hr
          rw [hd, List.cons_append] at hterm
          have hcond : ¬ (r.head? = some '.' ∨ r.head? = some 'e' ∨ r.head? = some 'E') := by
            cases r with
            | nil => simp
            | cons a r0 =>
              rw [restSafe] at hr
              rcases hr with ⟨-, d1, d2, d3⟩
              simp only [List.head?_cons]
              rintro (h | h | h)
              · exact d1 (by injection h)
              · exact d2 (by injection h)
              · exact d3 (by injection h)
          simp only [hterm]
          rw [if_neg hcond]
      | str s =>
        have hds : dumps (Json.str s) = dumpStr s := rfl
        have hlen2 : (dumpStr s).length = (s.flatMap escCharJ).length + 2 := by
          simp [dumpStr]
        rw [hds] at hfuel ⊢
        rw [hlen2] at hfuel
        obtain ⟨f, rfl⟩ : ∃ f, fuel = f + 1 := ⟨fuel - 1, by omega⟩
        rw [dumpStr]
        rw [(by simp : ((('"' :: s.flatMap escCharJ) ++ ['"']) : List Char) ++ r =
          '"' :: (s.flatMap escCharJ ++ '"' :: r))]
        rw [parseValue_str_eq, parseStrBody_dumps s f r (by omega)]
      | arr xs =>
        cases xs with
        | nil =>
          rw [(by rfl : dumps (Json.arr []) = ['[', ']'])] at hfuel ⊢
          have h2 : 2 ≤ fuel := by simpa using hfuel
          obtain ⟨f, rfl⟩ : ∃ f, fuel = f + 1 := ⟨fuel - 1, by omega⟩
          rw [(by simp : (['[', ']'] : List Char) ++ r = '[' :: ']' :: r)]
          rw [parseValue_arr_eq, dropWs_cons_of_not_ws ']' r (by decide)]
          obtain ⟨g, rfl⟩ : ∃ g, f = g + 1 := ⟨f - 1, by omega⟩
          exact parseArrBody_rbrack_eq g r
        | cons x xs0 =>
          have heq : dumps (Json.arr (x :: xs0)) =
              ('[' :: (dumps x ++ dumpsElemsRest xs0)) ++ [']'] := rfl
          rw [heq] at hN hfuel ⊢
          simp only [List.length_append, List.length_cons] at hN hfuel
          have hx1 := dumps_length_pos x
          have hwfp : WFb x = true ∧ WFbL xs0 = true := by
            have e1 : WFb (Json.arr (x :: xs0)) = (WFb x && WFbL xs0) := rfl
            rw [e1, Bool.and_eq_true] at hwf
            exact hwf
          obtain ⟨f, rfl⟩ : ∃ f, fuel = f + 1 := ⟨fuel - 1, by omega⟩
          rw [(by simp : ((('[' :: (dumps x ++ dumpsElemsRest xs0)) ++ [']']) : List Char)
              ++ r = '[' :: (dumps x ++ (dumpsElemsRest xs0 ++ ']' :: r)))]
          rw [parseValue_arr_eq, dropWs_dumps x (dumpsElemsRest xs0 ++ ']' :: r)]
          obtain ⟨g, rfl⟩ : ∃ g, f = g + 1 := ⟨f - 1, by omega⟩
          have hval := ihv x (dumpsElemsRest xs0 ++ ']' :: r) g hwfp.1 (by omega) (by omega)
            (restSafe_elems xs0 r)
          rcases dumps_head x with ⟨c, cs, hxeq, -, hne⟩
          rw [hxeq, List.cons_append] at hval
          rw [hxeq, List.cons_append, parseArrBody_cons_eq, if_neg hne]
          have hrest := ihar [x] xs0 r g hwfp.2 (by omega) (by omega)
          simp only [hval, dropWs_elemsRest, hrest]
          rw [List.singleton_append]
      | obj ms =>
        cases ms with
        | nil =>
          rw [(by rfl : dumps (Json.obj []) = ['{', '}'])] at hfuel ⊢
          have h2 : 2 ≤ fuel := by simpa using hfuel
          obtain ⟨f, rfl⟩ : ∃ f, fuel = f + 1 := ⟨fuel - 1, by omega⟩
          rw [(by simp : (['{', '}'] : List Char) ++ r = '{' :: '}' :: r)]
          rw [parseValue_obj_eq, dropWs_cons_of_not_ws '}' r (by decide)]
          obtain ⟨g, rfl⟩ : ∃ g, f = g + 1 := ⟨f - 1, by omega⟩
          exact parseObjBody_rbrace_eq g r
        | cons m ms0 =>
          have heq : dumps (Json.obj (m :: ms0)) =
              ('{' :: (dumpStr m.1 ++ ':' :: dumps m.2 ++ dumpsMembersRest ms0)) ++ ['}'] := rfl
          rw [heq] at hN hfuel ⊢
          have hsl : (dumpStr m.1).length = (m.1.flatMap escCharJ).length + 2 := by
            simp [dumpStr]
          simp only [List.length_append, List.length_cons, hsl] at hN hfuel
          have hv1 := dumps_length_pos m.2
          have hwfp : keyNodupB ((m :: ms0).map Prod.fst) = true ∧
              WFb m.2 = true ∧ WFbM ms0 = true := by
            have e1 : WFb (Json.obj (m :: ms0)) =
                (keyNodupB ((m :: ms0).map Prod.fst) && (WFb m.2 && WFbM ms0)) := rfl
            rw [e1, Bool.and_eq_true, Bool.and_eq_true] at hwf
            exact ⟨hwf.1, hwf.2.1, hwf.2.2⟩
          obtain ⟨f, rfl⟩ : ∃ f, fuel = f + 1 := ⟨fuel - 1, by omega⟩
          rw [(by simp : ((('{' :: (dumpStr m.1 ++ ':' :: dumps m.2 ++ dumpsMembersRest ms0))
              ++ ['}']) : List Char) ++ r =
            '{' :: (dumpStr m.1 ++ (':' :: (dumps m.2 ++
              (dumpsMembersRest ms0 ++ '}' :: r)))))]
          rw [parseValue_obj_eq, dropWs_dumpStr_append]
          obtain ⟨g, rfl⟩ : ∃ g, f = g + 1 := ⟨f - 1, by omega⟩
          rw [dumpStr]
          rw [(by simp : ((('"' :: m.1.flatMap escCharJ) ++ ['"']) : List Char) ++
              (':' :: (dumps m.2 ++ (dumpsMembersRest ms0 ++ '}' :: r))) =
            '"' :: (m.1.flatMap escCharJ ++ '"' ::
              (':' :: (dumps m.2 ++ (dumpsMembersRest ms0 ++ '}' :: r)))))]
          have hkey := parseStrBody_dumps m.1 g
            (':' :: (dumps m.2 ++ (dumpsMembersRest ms0 ++ '}' :: r))) (by omega)
          have hcol : dropWs (':' :: (dumps m.2 ++ (dumpsMembersRest ms0 ++ '}' :: r))) =
              ':' :: (dumps m.2 ++ (dumpsMembersRest ms0 ++ '}' :: r)) :=
            dropWs_cons_of_not_ws ':' _ (by decide)
          have hval := ihv m.2 (dumpsMembersRest ms0 ++ '}' :: r) g hwfp.2.1
            (by omega) (by omega) (restSafe_members ms0 r)
          have hrest := ihor [(m.1, m.2)] ms0 r g hwfp.2.2 (by simpa using hwfp.1)
            (by omega) (by omega)
          rw [parseObjBody_quote_eq]
          simp only [hkey, hcol, dropWs_dumps, hval, dropWs_membersRest, hrest,
            List.singleton_append, Prod.mk.eta]
    · intro acc ms r fuel hm hnd hN hfuel
      cases ms with
      | nil =>
        rw [(by rfl : dumpsMembersRest ([] : List (List Char × Json)) = [])] at hfuel ⊢
        rw [List.nil_append, List.append_nil]
        simp only [List.length_nil] at hfuel
        obtain ⟨f, rfl⟩ : ∃ f, fuel = f + 1 := ⟨fuel - 1, by omega⟩
        rw [parseObjRest_cons_eq, if_pos rfl]
      | cons p ms0 =>
        have heq : dumpsMembersRest (p :: ms0) =
            (',' :: dumpStr p.1) ++ (':' :: dumps p.2) ++ dumpsMembersRest ms0 := rfl
        rw [heq] at hN hfuel ⊢
        have hsl : (dumpStr p.1).length = (p.1.flatMap escCharJ).length + 2 := by
          simp [dumpStr]
        simp only [List.length_append, List.length_cons, hsl] at hN hfuel
        have hv1 := dumps_length_pos p.2
        have hmp : WFb p.2 = true ∧ WFbM ms0 = true := by
          have e1 : WFbM (p :: ms0) = (WFb p.2 && WFbM ms0) := rfl
          rw [e1, Bool.and_eq_true] at hm
          exact hm
        have hknd : ∀ q ∈ acc, ¬ q.1 = p.1 := by
          intro q hq
          have hmem : q.1 ∈ acc.map Prod.fst := List.mem_map.mpr ⟨q, hq, rfl⟩
          have hnd' : keyNodupB (acc.map Prod.fst ++ p.1 :: ms0.map Prod.fst) = true := by
            simpa using hnd
          exact nodup_split_head _ _ _ hnd' q.1 hmem
        obtain ⟨f, rfl⟩ : ∃ f, fuel = f + 1 := ⟨fuel - 1, by omega⟩
        rw [(by simp : ((((',' :: dumpStr p.1) ++ (':' :: dumps p.2) ++
            dumpsMembersRest ms0) ++ '}' :: r) : List Char) =
          ',' :: (dumpStr p.1 ++ (':' :: (dumps p.2 ++
            (dumpsMembersRest ms0 ++ '}' :: r)))))]
        rw [parseObjRest_cons_eq, if_neg (by decide), if_pos rfl]
        rw [dropWs_dumpStr_append, dumpStr]
        rw [(by simp : ((('"' :: p.1.flatMap escCharJ) ++ ['"']) : List Char) ++
            (':' :: (dumps p.2 ++ (dumpsMembersRest ms0 ++ '}' :: r))) =
          '"' :: (p.1.flatMap escCharJ ++ '"' ::
            (':' :: (dumps p.2 ++ (dumpsMembersRest ms0 ++ '}' :: r)))))]
        have hkey := parseStrBody_dumps p.1 f
          (':' :: (dumps p.2 ++ (dumpsMembersRest ms0 ++ '}' :: r))) (by omega)
        have hcol : dropWs (':' :: (dumps p.2 ++ (dumpsMembersRest ms0 ++ '}' :: r))) =
            ':' :: (dumps p.2 ++ (dumpsMembersRest ms0 ++ '}' :: r)) :=
          dropWs_cons_of_not_ws ':' _ (by decide)
        have hval := ihv p.2 (dumpsMembersRest ms0 ++ '}' :: r) f hmp.1 (by omega) (by omega)
          (restSafe_members ms0 r)
        have hoi : objInsert acc p.1 p.2 = acc ++ [(p.1, p.2)] :=
          objInsert_append acc p.1 p.2 hknd
        have hrest := ihor (acc ++ [(p.1, p.2)]) ms0 r f hmp.2 (by
            have hl : (acc ++ [(p.1, p.2)]) ++ ms0 = acc ++ p :: ms0 := by
              rw [List.append_assoc, List.singleton_append, Prod.mk.eta]
            rw [hl]
            exact hnd) (by omega) (by omega)
        simp only [hkey, hcol, dropWs_dumps, hval, hoi, dropWs_membersRest, hrest]
        rw [(by rw [List.append_assoc, List.singleton_append, Prod.mk.eta] :
          (acc ++ [(p.1, p.2)]) ++ ms0 = acc ++ p :: ms0)]
    · intro acc xs r fuel hl hN hfuel
      cases xs with
      | nil =>
        rw [(by rfl : dumpsElemsRest ([] : List Json) = [])] at hfuel ⊢
        rw [List.nil_append, List.append_nil]
        simp only [List.length_nil] at hfuel
        obtain ⟨f, rfl⟩ : ∃ f, fuel = f + 1 := ⟨fuel - 1, by omega⟩
        rw [parseArrRest_cons_eq, if_pos rfl]
      | cons x xs0 =>
        have heq : dumpsElemsRest (x :: xs0) = (',' :: dumps x) ++ dumpsElemsRest xs0 := rfl
        rw [heq] at hN hfuel ⊢
        simp only [List.length_append, List.length_cons] at hN hfuel
        have hx1 := dumps_length_pos x
        have hlp : WFb x = true ∧ WFbL xs0 = true := by
          have e1 : WFbL (x :: xs0) = (WFb x && WFbL xs0) := rfl
          rw [e1, Bool.and_eq_true] at hl
          exact hl
        obtain ⟨f, rfl⟩ : ∃ f, fuel = f + 1 := ⟨fuel - 1, by omega⟩
        rw [(by simp : ((((',' :: dumps x) ++ dumpsElemsRest xs0) ++ ']' :: r) : List Char) =
          ',' :: (dumps x ++ (dumpsElemsRest xs0 ++ ']' :: r)))]
        rw [parseArrRest_cons_eq, if_neg (by decide), if_pos rfl]
        have hval := ihv x (dumpsElemsRest xs0 ++ ']' :: r) f hlp.1 (by omega) (by omega)
          (restSafe_elems xs0 r)
        have hrest := ihar (acc ++ [x]) xs0 r f hlp.2 (by omega) (by omega)
        simp only [dropWs_dumps, hval, dropWs_elemsRest, hrest]
        rw [List.append_assoc, List.singleton_append]

theorem rt_value (v : Json) (r : List Char) (fuel : Nat) (hwf : WFb v = true)
    (hfuel : (dumps v).length ≤ fuel) (hr : restSafe r) :
    parseValue fuel (dumps v ++ r) = Except.ok (v, r) :=
  (rt_all (dumps v).length).1 v r fuel hwf (Nat.le_refl _) hfuel hr

theorem loads_dumps (v : Json) (hwf : WFb v = true) : loads (dumps v) = Except.ok v := by
  rw [loads, dropWs_dumps_nil]
  have h := rt_value v [] ((dumps v).length + 1) hwf (by omega) (by exact True.intro)
  rw [List.append_nil] at h
  rw [h]
  rfl

theorem safe_json_load_dumps (v : Json) (hwf : WFb v = true) :
    safe_json_load (dumps v) = Except.ok v := by
  rw [safe_json_load, safe_json_load_t, loads_dumps v hwf]

/-! ## Marker positioning for the round trip (claim C1) -/

theorem doc_get_marker (pre m tail : List Char) (j : Nat) (h1 : pre.length ≤ j)
    (h2 : j < pre.length + m.length) :
    (pre ++ m ++ tail).get? j = m.get? (j - pre.length) := by
  have hlt : j < (pre ++ m).length := by
    simp only [List.length_append]
    omega
  rw [List.get?_append hlt]
  exact List.get?_append_right h1

theorem doc_get_tail_zero (pre m tail : List Char) (c : Char) (ht : tail.get? 0 = some c) :
    (pre ++ m ++ tail).get? (pre.length + m.length) = some c := by
  have hlen : (pre ++ m).length = pre.length + m.length := by simp
  rw [← hlen, List.get?_append_right (Nat.le_refl _), Nat.sub_self]
  exact ht

theorem plainKeyMarker_get_ne (key : List Char) (t : Char) (h0 : ¬ t = '"')
    (hk : ∀ c ∈ key, c ≠ t) : ∀ i, (plainKeyMarker key).get? i ≠ some t := by
  intro i h
  have hmem : t ∈ plainKeyMarker key := List.get?_mem h
  rw [plainKeyMarker] at hmem
  simp only [List.cons_append, List.mem_cons, List.mem_append, List.mem_singleton] at hmem
  rcases hmem with h1 | h2 | h3
  · exact h0 h1
  · exact hk t h2 rfl
  · rcases h3 with h3 | h3
    · exact h0 h3
    · simp at h3

theorem escKeyMarker_get_ne (key : List Char) (t : Char) (h0 : ¬ t = '"')
    (h0b : ¬ t = '\\') (hk : ∀ c ∈ key, c ≠ t) :
    ∀ i, (escKeyMarker key).get? i ≠ some t := by
  intro i h
  have hmem : t ∈ escKeyMarker key := List.get?_mem h
  rw [escKeyMarker] at hmem
  simp only [List.cons_append, List.mem_cons, List.mem_append, List.mem_singleton] at hmem
  rcases hmem with h1 | h2 | h3 | h4 | h5
  · exact h0b h1
  · exact h0 h2
  · exact hk t h3 rfl
  · exact h0b h4
  · rcases h5 with h5 | h5
    · exact h0 h5
    · simp at h5

theorem marker_pos_plain (pre key tail : List Char) (hq : ∀ c ∈ key, c ≠ '"')
    (hk : ¬ occursIn key pre) :
    strFind (pre ++ plainKeyMarker key ++ tail) (plainKeyMarker key) = some pre.length :=
  strFind_of_first _ _ pre.length (matchAt_self pre _ tail)
    (fun j hj => no_straddle_plain pre key tail hq hk j hj)

theorem marker_pos_esc (pre key tail : List Char) (hq : ∀ c ∈ key, c ≠ '"')
    (hb : ∀ c ∈ key, c ≠ '\\') (hk : ¬ occursIn key pre) :
    strFind (pre ++ escKeyMarker key ++ tail) (escKeyMarker key) = some pre.length :=
  strFind_of_first _ _ pre.length (matchAt_self pre _ tail)
    (fun j hj => no_straddle_esc pre key tail hq hb hk j hj)

theorem not_occursIn_of_occursB (needle hay : List Char)
    (h : occursB needle hay = false) : ¬ occursIn needle hay := by
  intro ho
  rw [← occursB_iff] at ho
  rw [h] at ho
  cases ho

theorem brace_after_marker (pre m tail : List Char)
    (hm : ∀ i, m.get? i ≠ some '{') (ht : tail.get? 0 = some '{') :
    charFindFrom (pre ++ m ++ tail) '{' pre.length = some (pre.length + m.length) := by
  apply charFindFrom_of_first
  · omega
  · exact doc_get_tail_zero pre m tail '{' ht
  · intro j h1 h2
    rw [doc_get_marker pre m tail j h1 h2]
    exact hm _

theorem doc_drop_marker (pre m tail : List Char) :
    (pre ++ m ++ tail).drop (pre.length + m.length) = tail := by
  have hlen : (pre ++ m).length = pre.length + m.length := by simp
  rw [← hlen, List.drop_left]

theorem dumps_obj_get_zero (ms : List (List Char × Json)) :
    (dumps (Json.obj ms)).get? 0 = some '{' := by
  cases ms with
  | nil => rfl
  | cons m ms => rfl

theorem dumps_obj_append_get_zero (ms : List (List Char × Json)) (post : List Char) :
    (dumps (Json.obj ms) ++ post).get? 0 = some '{' := by
  rw [List.get?_append (by have := dumps_length_pos (Json.obj ms); omega)]
  exact dumps_obj_get_zero ms

theorem extract_roundtrip_plain (ms : List (List Char × Json)) (key pre post : List Char)
    (hwf : WFb (Json.obj ms) = true) (hq : ∀ c ∈ key, c ≠ '"')
    (hbr : ∀ c ∈ key, c ≠ '{') (hk : ¬ occursIn key pre) :
    extract_json_object (pre ++ plainKeyMarker key ++ (dumps (Json.obj ms) ++ post)) key =
      Except.ok (Json.obj ms) := by
  have hfind : findKeyIdx (pre ++ plainKeyMarker key ++ (dumps (Json.obj ms) ++ post)) key =
      some pre.length := by
    rw [findKeyIdx, marker_pos_plain pre key (dumps (Json.obj ms) ++ post) hq hk]
  have hbrace : charFindFrom (pre ++ plainKeyMarker key ++ (dumps (Json.obj ms) ++ post))
      '{' pre.length = some (pre.length + (plainKeyMarker key).length) :=
    brace_after_marker pre (plainKeyMarker key) (dumps (Json.obj ms) ++ post)
      (plainKeyMarker_get_ne key '{' (by decide) hbr)
      (dumps_obj_append_get_zero ms post)
  have hdrop : (pre ++ plainKeyMarker key ++ (dumps (Json.obj ms) ++ post)).drop
      (pre.length + (plainKeyMarker key).length) = dumps (Json.obj ms) ++ post :=
    doc_drop_marker pre (plainKeyMarker key) (dumps (Json.obj ms) ++ post)
  have hscan := scan_dumps_obj ms post
  have htake := take_dumps_obj ms post
  have hload := safe_json_load_dumps (Json.obj ms) hwf
  simp only [extract_json_object, hfind, hbrace, hdrop, hscan, htake, hload]

theorem extract_roundtrip_esc (ms : List (List Char × Json)) (key pre post : List Char)
    (hwf : WFb (Json.obj ms) = true) (hq : ∀ c ∈ key, c ≠ '"')
    (hb : ∀ c ∈ key, c ≠ '\\') (hbr : ∀ c ∈ key, c ≠ '{') (hk : ¬ occursIn key pre)
    (hnp : ¬ occursIn (plainKeyMarker key)
      (pre ++ escKeyMarker key ++ (dumps (Json.obj ms) ++ post))) :
    extract_json_object (pre ++ escKeyMarker key ++ (dumps (Json.obj ms) ++ post)) key =
      Except.ok (Json.obj ms) := by
  have hpn : strFind (pre ++ escKeyMarker key ++ (dumps (Json.obj ms) ++ post))
      (plainKeyMarker key) = none :=
    (strFind_eq_none_iff _ _).mpr (fun j hj => hnp ⟨j, hj⟩)
  have hfind : findKeyIdx (pre ++ escKeyMarker key ++ (dumps (Json.obj ms) ++ post)) key =
      some pre.length := by
    rw [findKeyIdx, hpn, marker_pos_esc pre key (dumps (Json.obj ms) ++ post) hq hb hk]
  have hbrace : charFindFrom (pre ++ escKeyMarker key ++ (dumps (Json.obj ms) ++ post))
      '{' pre.length = some (pre.length + (escKeyMarker key).length) :=
    brace_after_marker pre (escKeyMarker key) (dumps (Json.obj ms) ++ post)
      (escKeyMarker_get_ne key '{' (by decide) (by decide) hbr)
      (dumps_obj_append_get_zero ms post)
  have hdrop : (pre ++ escKeyMarker key ++ (dumps (Json.obj ms) ++ post)).drop
      (pre.length + (escKeyMarker key).length) = dumps (Json.obj ms) ++ post :=
    doc_drop_marker pre (escKeyMarker key) (dumps (Json.obj ms) ++ post)
  have hscan := scan_dumps_obj ms post
  have htake := take_dumps_obj ms post
  have hload := safe_json_load_dumps (Json.obj ms) hwf
  simp only [extract_json_object, hfind, hbrace, hdrop, hscan, htake, hload]

/-- C1 (amended): Extractor round trip. Serializing a well-formed record
(duplicate-free keys at every level) and embedding it behind the key marker
with leading filler `pre` and trailing filler `post` yields exactly the
record back from the extractor, provided the key contains no quote,
backslash or opening-brace character and does not occur in the leading
filler; for the plain form `"key"` this is unconditional, while for the
escaped form `\"key\"` the plain form must additionally not occur anywhere
in the document, because the plain form is searched first. -/
theorem claim1_roundtrip_amended (ms : List (List Char × Json))
    (key pre post : List Char) (hwf : WFb (Json.obj ms) = true)
    (hq : ∀ c ∈ key, c ≠ '"') (hb : ∀ c ∈ key, c ≠ '\\') (hbr : ∀ c ∈ key, c ≠ '{')
    (hk : ¬ occursIn key pre) :
    extract_json_object (pre ++ plainKeyMarker key ++ (dumps (Json.obj ms) ++ post)) key =
      Except.ok (Json.obj ms) ∧
    (¬ occursIn (plainKeyMarker key)
        (pre ++ escKeyMarker key ++ (dumps (Json.obj ms) ++ post)) →
      extract_json_object (pre ++ escKeyMarker key ++ (dumps (Json.obj ms) ++ post)) key =
        Except.ok (Json.obj ms)) :=
  ⟨extract_roundtrip_plain ms key pre post hwf hq hbr hk,
   fun hnp => extract_roundtrip_esc ms key pre post hwf hq hb hbr hk hnp⟩

/-- C1 counterexample: the claim fails as frozen. The record whose single
member has key `k` and value the empty object is serialized and embedded
with empty filler behind the escaped marker for key `k` (so the key does not
occur in the filler), yet the extractor returns the inner empty object
instead of the record: the plain form `"k"` is searched first, is found
inside the serialized record itself, and the object delimited from there is
the member value, not the embedded record. -/
theorem claim1_counterexample :
    extract_json_object ([] ++ escKeyMarker ['k'] ++
        (dumps (Json.obj [(['k'], Json.obj [])]) ++ [])) ['k'] =
      Except.ok (Json.obj []) ∧
    Json.obj [] ≠ Json.obj [(['k'], Json.obj [])] ∧
    ¬ occursIn ['k'] [] := by
  refine ⟨?_, ?_, ?_⟩
  · rfl
  · intro h
    injection h with h2
    cases h2
  · intro h
    rcases h with ⟨j, hj⟩
    rw [matchAt_nil] at hj
    cases hj

/-- Witness for the amended C1: a concrete nested record round-trips through
a document with filler on both sides, behind each of the two marker forms. -/
theorem claim1_witness :
    extract_json_object (['<'] ++ plainKeyMarker vrmKey ++
        (dumps (Json.obj [(['M','a','k','e'], Json.str ['F','o','r','d']),
          (['O','w','n'], Json.obj [(['Y'], Json.num 2020)])]) ++ ['>'])) vrmKey =
      Except.ok (Json.obj [(['M','a','k','e'], Json.str ['F','o','r','d']),
        (['O','w','n'], Json.obj [(['Y'], Json.num 2020)])]) ∧
    extract_json_object (['<'] ++ escKeyMarker vrmKey ++
        (dumps (Json.obj [(['M','a','k','e'], Json.str ['F','o','r','d']),
          (['O','w','n'], Json.obj [(['Y'], Json.num 2020)])]) ++ ['>'])) vrmKey =
      Except.ok (Json.obj [(['M','a','k','e'], Json.str ['F','o','r','d']),
        (['O','w','n'], Json.obj [(['Y'], Json.num 2020)])]) :=
  ⟨(claim1_roundtrip_amended
      [(['M','a','k','e'], Json.str ['F','o','r','d']),
        (['O','w','n'], Json.obj [(['Y'], Json.num 2020)])]
      vrmKey ['<'] ['>'] (by rfl) (by decide) (by decide) (by decide)
      (not_occursIn_of_occursB _ _ (by rfl))).1,
   (claim1_roundtrip_amended
      [(['M','a','k','e'], Json.str ['F','o','r','d']),
        (['O','w','n'], Json.obj [(['Y'], Json.num 2020)])]
      vrmKey ['<'] ['>'] (by rfl) (by decide) (by decide) (by decide)
      (not_occursIn_of_occursB _ _ (by rfl))).2
     (not_occursIn_of_occursB _ _ (by rfl))⟩
